import Mathlib

/-!
# neutron: a shallow embedding of the PoC scan engine

Go strings are modelled as lists of Unicode code points (`Str`): they are taken
to be valid UTF-8, for which the byte-wise order of Go strings is the
lexicographic order of the code points. Go maps are association lists with
distinct keys, whose order is the order in which a `range` loop visits the
entries. `int` has 64 bits. The collaborators that live outside the repository
(the CEL evaluator, `regexp`, `net/url`, `fmt`, the HTTP client) are the fields
of `Externals`; a run-time panic is an outcome of its own.
-/

namespace Neutron

/-! ## Strings -/

/-- A Go string, as the list of its code points. -/
abbrev Str := List Char

/-- The scanning loop of `strings.Replace(s, old, new, -1)` for a non-empty
`old`: leftmost, non-overlapping occurrences of `old` become `new`. The counter
is the number of characters of a matched occurrence still to be skipped. -/
def replaceFrom (old new : Str) : Nat → Str → Str
  | _, [] => []
  | skip + 1, _ :: cs => replaceFrom old new skip cs
  | 0, c :: cs =>
    if old.isPrefixOf (c :: cs) then new ++ replaceFrom old new (old.length - 1) cs
    else c :: replaceFrom old new 0 cs

/-- Go `strings.ReplaceAll(s, old, new)`. -/
def ReplaceAll (s old new : Str) : Str :=
  if old = new then s
  else if old = [] then new ++ s.flatMap (fun c => c :: new)
  else replaceFrom old new 0 s

/-- Go `unicode.IsSpace`. -/
def isSpace (c : Char) : Bool :=
  let n := c.toNat
  n = 0x09 || n = 0x0A || n = 0x0B || n = 0x0C || n = 0x0D || n = 0x20 ||
  n = 0x85 || n = 0xA0 || n = 0x1680 || (0x2000 ≤ n && n ≤ 0x200A) ||
  n = 0x2028 || n = 0x2029 || n = 0x202F || n = 0x205F || n = 0x3000

/-- Go `strings.TrimSpace`. -/
def TrimSpace (s : Str) : Str :=
  ((s.dropWhile isSpace).reverse.dropWhile isSpace).reverse

/-- Whether `pat` occurs in `s` as a contiguous substring (`strings.Contains`). -/
def Contains (s pat : Str) : Bool :=
  match s with
  | [] => pat.isPrefixOf []
  | c :: cs => pat.isPrefixOf (c :: cs) || Contains cs pat

/-! ## Protocol objects and binding values -/

/-- The `proto.UrlType` object, kept as the text of the parsed URL. -/
structure UrlType where
  href : Str
deriving DecidableEq, Repr

/-- The `proto.Request` object. -/
structure Request where
  Url : UrlType
  Method : Str
  Headers : List (Str × Str)
  Body : Str
deriving DecidableEq, Repr

/-- The `proto.Response` object. -/
structure Response where
  Url : UrlType
  Status : Int
  ContentType : Str
  Headers : List (Str × Str)
  Body : Str
  BodyString : Str
deriving DecidableEq, Repr

/-- The `proto.Reverse` object; `&Reverse{}` is the record of zero values. -/
structure Reverse where
  Url : UrlType := ⟨[]⟩
  Flag : Str := []
  Domain : Str := []
  Ip : Str := []
  IsDomainNameServer : Bool := false
deriving DecidableEq, Repr

/-- The values a `map[string]any` of bindings holds. -/
inductive Val where
  | int (i : Int)
  | str (s : Str)
  | reverse (r : Reverse)
  | request (r : Request)
  | response (r : Response)
  | strmap (m : List (Str × Str))
deriving DecidableEq, Repr

/-- A `map[string]any`: entries with distinct keys. -/
abbrev Bindings := List (Str × Val)

/-- Reading `m[k]` with the comma-ok form. -/
def lookupKey {β : Type} (k : Str) : List (Str × β) → Option β
  | [] => none
  | (k', v) :: rest => if k' = k then some v else lookupKey k rest

/-- The assignment `m[k] = v`: an existing entry is overwritten, a new one added. -/
def setKey {β : Type} (k : Str) (v : β) : List (Str × β) → List (Str × β)
  | [] => [(k, v)]
  | (k', v') :: rest => if k' = k then (k, v) :: rest else (k', v') :: setKey k v rest

/-! ## build.PocRule -/

/-- The `build.PocRule` record. -/
structure PocRule where
  Method : Str
  Path : Str
  Headers : List (Str × Str)
  Body : Str
  FollowRedirects : Bool
  Search : Str
  Expression : Str
deriving DecidableEq, Repr

/-- The text `{{key}}` a binding replaces. -/
def hole (key : Str) : Str := '{' :: '{' :: key ++ ['}', '}']

/-- One iteration of the loop of `PocRule.DecodeSet`, for the entry
`key ↦ valueSet`; `sprint` is `fmt.Sprintf("%v", ·)`. -/
def decodeEntry (sprint : Val → Str) (r : PocRule) (entry : Str × Val) : PocRule :=
  match entry.2 with
  | .strmap _ => r
  | valueSet =>
    let value := sprint valueSet
    { r with
      Headers := r.Headers.map (fun h => (h.1, ReplaceAll h.2 (hole entry.1) value))
      Path := ReplaceAll (TrimSpace r.Path) (hole entry.1) value
      Body := ReplaceAll (TrimSpace r.Body) (hole entry.1) value }

/-- The method `(r *PocRule) DecodeSet(set)`: the rule after the in-place
update, `set` listing the entries in the order the `range` visits them. -/
def PocRule.DecodeSet (sprint : Val → Str) (r : PocRule) (set : Bindings) : PocRule :=
  let r := set.foldl (decodeEntry sprint) r
  let r := { r with Path := ReplaceAll r.Path [' '] ['%', '2', '0'] }
  { r with Path := ReplaceAll r.Path ['+'] ['%', '2', '0'] }

/-! ## The world outside the scanner -/

/-- How a Go call ends: with a value, or in a run-time panic. -/
inductive Outcome (α : Type) where
  | value (a : α)
  | panic
deriving DecidableEq, Repr

/-- A CEL value (`ref.Val`); `err` is the `*types.Err` made by `types.NewErr`,
`object` a protocol object. -/
inductive CelVal where
  | bool (b : Bool)
  | int (i : Int)
  | str (s : Str)
  | bytes (b : Str)
  | null
  | err (msg : Str)
  | object (v : Val)
deriving DecidableEq, Repr

/-- The `*cel.Env` of a scanner: the names declared in it. -/
structure CelEnv where
  declared : List Str
deriving DecidableEq, Repr

/-- A compiled `*regexp.Regexp`: `names` is `SubexpNames()` (entry 0 is the
whole match and is unnamed), `find` is `FindStringSubmatch` (`[]` for nil). -/
structure Regexp where
  names : List Str
  find : Str → List Str

/-- The `*fasthttp.Response` handed back by the HTTP collaborator, as
`SetupResponse` reads it. -/
structure RawResponse where
  StatusCode : Int
  Header : Str
  ContentType : Str
  Body : Str
deriving DecidableEq, Repr

/-- The process state the scanner acts on: a clock counting the calls made to
the collaborators, the requests handed to `http.Do` by `scan` (with the
redirect flag), and the acquire/release counters of the two object pools. -/
structure World where
  clock : Nat
  log : List (Request × Bool)
  requestsAcquired : Nat
  requestsReleased : Nat
  responsesAcquired : Nat
  responsesReleased : Nat
deriving DecidableEq, Repr

/-- The process-global reverse configuration set by `SetupReverse`. -/
structure Globals where
  reverseDomain : Str
  reverseToken : Str
deriving DecidableEq, Repr

/-- The collaborators that are not code of this repository, and the draws from
the process-global random generator. Those whose answer may change from call to
call receive the world at the time of the call. -/
structure Externals where
  /-- `fmt.Sprintf("%v", v)` on a binding value. -/
  sprint : Val → Str
  /-- `fmt.Sprintf("%v", out)` on a CEL value. -/
  sprintCel : CelVal → Str
  /-- The order in which a `range` over a bindings map visits its entries. -/
  rangeOrder : World → Bindings → Bindings
  /-- `url.JoinPath(target, path)`, the empty string on error. -/
  joinPath : Str → Str → Str
  /-- The object `proto.SetupRequest` builds, or its error. -/
  buildRequest : Str → Str → Str → List (Str × Str) → Except Str Request
  /-- `http.Do(origin, followRedirects)`. -/
  httpDo : World → Request → Bool → Except Str RawResponse
  /-- `url.Parse` followed by `SetupURL`. -/
  urlParse : Str → Except Str UrlType
  /-- `(*url.URL).Hostname`. -/
  hostname : UrlType → Str
  /-- `strings.ToLower`. -/
  toLower : Str → Str
  /-- `regexp.Compile`. -/
  regexpCompile : Str → Except Str Regexp
  /-- `env.Compile(expression)` followed by `env.Program(ast)`; the error says
  which of the two failed. -/
  celProgram : CelEnv → Str → Except (Bool × Str) Str
  /-- `program.Eval(params)`. -/
  celEval : World → Str → Bindings → Except Str CelVal
  /-- `utils.RandLetterNumbers(n)`, drawn from the process-global generator. -/
  randLetterNumbers : World → Nat → Str
  /-- The number `rand.Intn(n)` draws for a bound `n > 0`. -/
  randIntn : World → Int → Int

/-- One more call to a collaborator has been made. -/
def World.tick (w : World) : World := { w with clock := w.clock + 1 }

/-! ## library/decode -/

/-- A value of Go type `int64` after wrap-around. -/
def wrapInt64 (x : Int) : Int := (x + 2 ^ 63) % 2 ^ 64 - 2 ^ 63

/-- A value of Go type `int32` after wrap-around. -/
def wrapInt32 (x : Int) : Int := (x + 2 ^ 31) % 2 ^ 32 - 2 ^ 31

/-- The slice expression `runes[low:high]`, which panics unless
`0 ≤ low ≤ high ≤ cap(runes)`. The capacity of `[]rune(str)` is taken to be its
length; `substrFunc` only slices after checking `high ≤ len(runes)`. -/
def sliceRunes (runes : Str) (low high : Int) : Outcome Str :=
  if 0 ≤ low ∧ low ≤ high ∧ high ≤ runes.length then
    .value ((runes.take high.toNat).drop low.toNat)
  else .panic

/-- The built-in `substr` (`substrFunc.Function`); `start + length` is an
`int64` sum and wraps. -/
def substrFunc (values : List CelVal) : Outcome CelVal :=
  match values with
  | [v0, v1, v2] =>
    match v0 with
    | .str str =>
      match v1 with
      | .int start =>
        match v2 with
        | .int length =>
          let runes := str
          if start < 0 ∨ length < 0 ∨ wrapInt64 (start + length) > runes.length then
            .value (.err "invalid start or length to 'substr'".toList)
          else
            match sliceRunes runes start (wrapInt64 (start + length)) with
            | .value out => .value (.str out)
            | .panic => .panic
        | _ => .value (.err "invalid length to 'substr'".toList)
      | _ => .value (.err "invalid start to 'substr'".toList)
    | _ => .value (.err "invalid string to 'substr'".toList)
  | _ => .value (.err "too many arguments to 'substr'".toList)

/-- The function `decode.Evaluate` of compile.go, which wraps the error of each
stage; evaluate.go holds a copy that returns the same errors unwrapped. -/
def Evaluate (X : Externals) (w : World) (env : CelEnv) (expression : Str)
    (params : Bindings) : Except Str CelVal :=
  match X.celProgram env expression with
  | .error (true, e) => .error ("compile error: ".toList ++ e)
  | .error (false, e) => .error ("program error: ".toList ++ e)
  | .ok f =>
    match X.celEval w f params with
    | .error e => .error ("evaluate error: ".toList ++ e)
    | .ok out => .ok out

/-- The loop `for i, name := range names` of `decode.Search`, from index `i` on. -/
def bindNames (result : List Str) : Nat → List Str → Bindings → Outcome Bindings
  | _, [], set => .value set
  | i, name :: names, set =>
    if 0 < i ∧ i ≤ result.length then
      match result.get? i with
      | none => .panic
      | some m => bindNames result (i + 1) names (setKey name (.str m) set)
    else bindNames result (i + 1) names set

/-- The function `decode.Search(re, body, set)`, the same in compile.go and
evaluate.go: the returned error (`none` for nil) and the map `set` after the
call. -/
def Search (X : Externals) (re body : Str) (set : Bindings) : Outcome (Option Str × Bindings) :=
  match X.regexpCompile re with
  | .error e => .value (some e, set)
  | .ok r =>
    let result := r.find body
    let names := r.names
    if result.length > 1 ∧ names.length > 1 then
      match bindNames result 0 names set with
      | .panic => .panic
      | .value set => .value (none, set)
    else .value (some "not matched".toList, set)

/-! ## library/proto -/

/-- The function `proto.NewReverse`; it panics on the nil `*url.URL` left by a
failed `url.Parse`. -/
def NewReverse (X : Externals) (G : Globals) (w : World) : Outcome Reverse × World :=
  if G.reverseDomain = [] then (.value {}, w)
  else
    let flag := X.randLetterNumbers w 8
    let urlStr := "http://".toList ++ flag ++ ['.'] ++ G.reverseDomain
    match X.urlParse urlStr with
    | .error _ => (.panic, w.tick)
    | .ok u =>
      (.value { Url := u, Flag := flag, Domain := X.hostname u, Ip := [],
                IsDomainNameServer := false }, w.tick)

/-! ## library/utils and build.PocEvent -/

/-- The function `utils.SortMapKeys`: the keys, sorted by `sort.Strings`. -/
def SortMapKeys (m : List (Str × Str)) : List Str :=
  (m.map Prod.fst).insertionSort (· ≤ ·)

/-- The `build.PocEvent` record. -/
structure PocEvent where
  Name : Str
  Set : List (Str × Str)
  Rules : List PocRule
  Groups : List (Str × List PocRule)
deriving DecidableEq, Repr

/-- The state of a run of `PocEvent.DecodeSet`: the map `set`, the world, the
calls made to `decode.Evaluate` so far (the key being resolved and the map
passed as parameters), and whether the run has ended in a panic. -/
structure SetRun where
  set : Bindings
  world : World
  calls : List (Str × Bindings)
  panicked : Bool
deriving DecidableEq, Repr

/-- The binding made from the value of an expression (the type switch of
`PocEvent.DecodeSet`). -/
def bindingOf (X : Externals) (out : CelVal) : Val :=
  match out with
  | .int v => .int v
  | .bytes v => .str v
  | out => .str (X.sprintCel out)

/-- The loop `for i := range keys` of `PocEvent.DecodeSet`. -/
def decodeKeys (X : Externals) (G : Globals) (env : CelEnv) (pset : List (Str × Str)) :
    List Str → SetRun → SetRun
  | [], run => run
  | key :: keys, run =>
    let value := (lookupKey key pset).getD []
    if value = [] then decodeKeys X G env pset keys run
    else if value = "newReverse()".toList then
      match NewReverse X G run.world with
      | (.panic, w) => { run with world := w, panicked := true }
      | (.value rv, w) =>
        decodeKeys X G env pset keys { run with set := setKey key (.reverse rv) run.set, world := w }
    else
      match Evaluate X run.world env value run.set with
      | .error _ =>
        decodeKeys X G env pset keys
          { run with world := run.world.tick, calls := run.calls ++ [(key, run.set)] }
      | .ok out =>
        decodeKeys X G env pset keys
          { run with set := setKey key (bindingOf X out) run.set, world := run.world.tick,
                     calls := run.calls ++ [(key, run.set)] }

/-- The method `(p *PocEvent) DecodeSet(env)`. -/
def PocEvent.DecodeSet (X : Externals) (G : Globals) (p : PocEvent) (env : CelEnv)
    (w : World) : SetRun :=
  let run : SetRun := { set := [], world := w, calls := [], panicked := false }
  if p.Set.length > 0 then decodeKeys X G env p.Set (SortMapKeys p.Set) run
  else run

/-! ## library/proto: requests and responses -/

/-- Modelled from the spec: `proto.SetupRequest` (library/proto/request.go is
not among the sources). It builds the `Request` of a rule from the substituted
templates, taking the object from the request pool, or fails with a
request-construction error; the object built is the collaborator
`buildRequest`. -/
def SetupRequest (X : Externals) (method url body : Str) (headers : List (Str × Str))
    (w : World) : Except Str Request × World :=
  match X.buildRequest method url body headers with
  | .error e => (.error e, w)
  | .ok request => (.ok request, { w with requestsAcquired := w.requestsAcquired + 1 })

/-- Modelled from the spec: `proto.ReleaseRequest` (library/proto/request.go is
not among the sources) returns the object to the request pool. -/
def ReleaseRequest (w : World) : World :=
  { w with requestsReleased := w.requestsReleased + 1 }

/-- The function `proto.ReleaseResponse`, on a non-nil response. -/
def ReleaseResponse (w : World) : World :=
  { w with responsesReleased := w.responsesReleased + 1 }

/-- The scanning loop of `strings.Split(s, sep)` for a non-empty `sep`; `cur`
holds the current piece, reversed. -/
def splitFrom (sep : Str) : Nat → Str → Str → List Str
  | _, cur, [] => [cur.reverse]
  | skip + 1, cur, _ :: cs => splitFrom sep skip cur cs
  | 0, cur, c :: cs =>
    if sep.isPrefixOf (c :: cs) then cur.reverse :: splitFrom sep (sep.length - 1) [] cs
    else splitFrom sep 0 (c :: cur) cs

/-- The call `strings.SplitN(line, ":", 2)` when it yields two pieces. -/
def cutColon : Str → Option (Str × Str)
  | [] => none
  | c :: cs => if c = ':' then some ([], cs) else (cutColon cs).map fun p => (c :: p.1, p.2)

/-- The header loop of `proto.SetupResponse`. -/
def parseHeaders (X : Externals) : List Str → List (Str × Str) → List (Str × Str)
  | [], headers => headers
  | line :: lines, headers =>
    match cutColon line with
    | none => parseHeaders X lines headers
    | some (name, value) => parseHeaders X lines (setKey (X.toLower name) (TrimSpace value) headers)

/-- The function `proto.SetupResponse(response, req)`; the request stands for
the `*fasthttp.Request` made from it by `ToFasthttp`. -/
def SetupResponse (X : Externals) (response : RawResponse) (req : Request) (w : World) :
    Except Str Response × World :=
  match X.urlParse req.Url.href with
  | .error e => (.error e, w)
  | .ok u =>
    let headers := parseHeaders X (splitFrom ['\r', '\n'] 0 [] response.Header) []
    (.ok { Url := u, Headers := headers, Status := wrapInt32 response.StatusCode,
           ContentType := response.ContentType, Body := response.Body,
           BodyString := response.Body },
     { w with responsesAcquired := w.responsesAcquired + 1 })

/-! ## scanner -/

/-- The `scanner` record. -/
structure Scanner where
  env : CelEnv
  set : Bindings
deriving DecidableEq, Repr

/-- How `scan`, a rule of `Start`, `Start` or `StartByGroups` ends: by returning
`(verify, err)`, `err = none` being the nil error, or in a panic. -/
inductive Ret where
  | done (verify : Bool) (err : Option Str)
  | panicked
deriving DecidableEq, Repr

/-- The end of a call of `scan`: what it returns, the scanner and the per-rule
map `set` at that moment, and the world. -/
structure ScanRun where
  ret : Ret
  scanner : Scanner
  set : Bindings
  world : World
deriving DecidableEq, Repr

/-- The method `(s *scanner) scan(target, rule)`. The deferred release of the
`*fasthttp.Response`, an object of the HTTP collaborator, is left out. -/
def scan (X : Externals) (s : Scanner) (target : Str) (rule : PocRule) (w : World) : ScanRun :=
  let set : Bindings := s.set
  let urlpath := X.joinPath target rule.Path
  match SetupRequest X rule.Method urlpath rule.Body rule.Headers w with
  | (.error err, w) => ⟨.done false (some err), s, set, w⟩
  | (.ok request, w) =>
    let set := setKey "request".toList (.request request) set
    let origin := request
    let answer := X.httpDo w origin rule.FollowRedirects
    let w := { w with clock := w.clock + 1, log := w.log ++ [(origin, rule.FollowRedirects)] }
    match answer with
    | .error err => ⟨.done false (some err), s, set, w⟩
    | .ok response =>
      match SetupResponse X response origin w with
      | (.error err, w) => ⟨.done false (some err), s, set, w⟩
      | (.ok resp, w) =>
        if rule.Search ≠ [] then
          match Search X (TrimSpace rule.Search) resp.Body set with
          | .panic => ⟨.panicked, s, set, w⟩
          | .value (some _, set) => ⟨.done false none, s, set, w⟩
          | .value (none, set) => ⟨.done true none, s, set, w⟩
        else
          let set := setKey "response".toList (.response resp) set
          match Evaluate X w s.env rule.Expression set with
          | .error err => ⟨.done false (some ("scan failed: ".toList ++ err)), s, set, w.tick⟩
          | .ok out =>
            match out with
            | .bool b => ⟨.done b none, s, set, w.tick⟩
            | _ => ⟨.panicked, s, set, w.tick⟩

/-- The statement `if request, ok := s.set["request"]; ok { ... }` of `Start`;
the type assertion panics on a value that is no `*proto.Request`. -/
def releaseRequestOf (s : Scanner) (w : World) : Outcome World :=
  match lookupKey "request".toList s.set with
  | none => .value w
  | some (.request _) => .value (ReleaseRequest w)
  | some _ => .panic

/-- The statement `if response, ok := s.set["response"]; ok { ... }` of `Start`. -/
def releaseResponseOf (s : Scanner) (w : World) : Outcome World :=
  match lookupKey "response".toList s.set with
  | none => .value w
  | some (.response _) => .value (ReleaseResponse w)
  | some _ => .panic

/-- One iteration of the loop of `Start`, up to the two tests that end it. -/
structure Step where
  ret : Ret
  scanner : Scanner
  rule : PocRule
  set : Bindings
  world : World
deriving DecidableEq, Repr

/-- The body of the loop of `Start` for `rules[i]`: substitution, `scan`, and
the two release statements. -/
def ruleStep (X : Externals) (s : Scanner) (target : Str) (rule : PocRule) (w : World) : Step :=
  let rule := rule.DecodeSet X.sprint (X.rangeOrder w s.set)
  let w := w.tick
  let run := scan X s target rule w
  match run.ret with
  | .panicked => ⟨.panicked, run.scanner, rule, run.set, run.world⟩
  | .done verify err =>
    match releaseRequestOf run.scanner run.world with
    | .panic => ⟨.panicked, run.scanner, rule, run.set, run.world⟩
    | .value w =>
      match releaseResponseOf run.scanner w with
      | .panic => ⟨.panicked, run.scanner, rule, run.set, w⟩
      | .value w => ⟨.done verify err, run.scanner, rule, run.set, w⟩

/-- The end of a call of `Start`: what it returns, the scanner, the rules slice
after the in-place substitutions, and the world. -/
structure StartRun where
  ret : Ret
  scanner : Scanner
  rules : List PocRule
  world : World
deriving DecidableEq, Repr

/-- The loop of `Start` over the rules not yet visited; `verify` is the current
value of the result variable. -/
def startLoop (X : Externals) (target : Str) : Scanner → Bool → List PocRule → World → StartRun
  | s, verify, [], w => ⟨.done verify none, s, [], w⟩
  | s, _, rule :: rest, w =>
    let step := ruleStep X s target rule w
    match step.ret with
    | .panicked => ⟨.panicked, step.scanner, step.rule :: rest, step.world⟩
    | .done verify (some err) => ⟨.done verify (some err), step.scanner, step.rule :: rest, step.world⟩
    | .done false none => ⟨.done false none, step.scanner, step.rule :: rest, step.world⟩
    | .done true none =>
      let run := startLoop X target step.scanner true rest step.world
      ⟨run.ret, run.scanner, step.rule :: run.rules, run.world⟩

/-- The method `(s *scanner) Start(target, rules)`. -/
def Start (X : Externals) (s : Scanner) (target : Str) (rules : List PocRule) (w : World) :
    StartRun :=
  startLoop X target s false rules w

/-- The state of the inner loop of `StartByGroups` for one group: `ret` is set
when `StartByGroups` returns from inside the loop, `verify` is the result
variable. -/
structure GroupRun where
  ret : Option Ret
  verify : Bool
  scanner : Scanner
  rules : List PocRule
  world : World
deriving DecidableEq, Repr

/-- The loop `for i := 0; i < len(rules); i++` of `StartByGroups`, with `n`
iterations left. -/
def groupLoop (X : Externals) (target : Str) : Nat → Scanner → Bool → List PocRule → World → GroupRun
  | 0, s, verify, rules, w => ⟨none, verify, s, rules, w⟩
  | n + 1, s, _, rules, w =>
    let run := Start X s target rules w
    match run.ret with
    | .panicked => ⟨some .panicked, false, run.scanner, run.rules, run.world⟩
    | .done verify (some err) => ⟨some (.done verify (some err)), verify, run.scanner, run.rules, run.world⟩
    | .done true none => ⟨some (.done true none), true, run.scanner, run.rules, run.world⟩
    | .done false none => groupLoop X target n run.scanner false run.rules run.world

/-- The end of a call of `StartByGroups`. -/
structure GroupsRun where
  ret : Ret
  scanner : Scanner
  groups : List (Str × List PocRule)
  world : World
deriving DecidableEq, Repr

/-- The loop `for _, rules := range groups` of `StartByGroups`, over the groups
not yet visited, in the order the `range` visits them. -/
def groupsLoop (X : Externals) (target : Str) :
    Scanner → Bool → List (Str × List PocRule) → World → GroupsRun
  | s, verify, [], w => ⟨.done verify none, s, [], w⟩
  | s, verify, (name, rules) :: rest, w =>
    let g := groupLoop X target rules.length s verify rules w
    match g.ret with
    | some ret => ⟨ret, g.scanner, (name, g.rules) :: rest, g.world⟩
    | none =>
      let run := groupsLoop X target g.scanner g.verify rest g.world
      ⟨run.ret, run.scanner, (name, g.rules) :: run.groups, run.world⟩

/-- The method `(s *scanner) StartByGroups(target, groups)`. -/
def StartByGroups (X : Externals) (s : Scanner) (target : Str)
    (groups : List (Str × List PocRule)) (w : World) : GroupsRun :=
  groupsLoop X target s false groups w

/-! ## library/decode and library/proto: the built-ins `randomInt` and `wait` -/

/-- The name `%v` prints for the type of a CEL value. -/
def typeName : CelVal → Str
  | .bool _ => "bool".toList
  | .int _ => "int".toList
  | .str _ => "string".toList
  | .bytes _ => "bytes".toList
  | .null => "null_type".toList
  | .err _ => "error".toList
  | .object (.reverse _) => "proto.Reverse".toList
  | .object (.request _) => "proto.Request".toList
  | .object (.response _) => "proto.Response".toList
  | .object _ => "object".toList

/-- The helper `types.ValOrErr(val, format, val.Type())`: an error value is
passed on, any other value gives a new error. -/
def valOrErr (val : CelVal) (before after : Str) : CelVal :=
  match val with
  | .err msg => .err msg
  | val => .err (before ++ typeName val ++ after)

/-- The built-in `randomInt` (`randomIntFunc.Binary`): `max - min` and the final
sum are `int` operations and wrap; `rand.Intn(n)` panics for `n <= 0`. -/
def randomIntFunc (X : Externals) (w : World) (lhs rhs : CelVal) : Outcome CelVal :=
  match lhs with
  | .int from_ =>
    match rhs with
    | .int to_ =>
      let min := from_
      let max := to_
      if wrapInt64 (max - min) ≤ 0 then .panic
      else .value (.int (wrapInt64 (X.randIntn w (wrapInt64 (max - min)) + min)))
    | rhs => .value (valOrErr rhs "unexpected type '".toList "' passed to randomInt".toList)
  | lhs => .value (valOrErr lhs "unexpected type '".toList "' passed to randomInt".toList)

/-- The constant `ceyeIoApi` with its three `%s` filled in. -/
def ceyeIoApi (token kind filter : Str) : Str :=
  "http://api.ceye.io/v1/records?token=".toList ++ token ++ "&type=".toList ++ kind ++
    "&filter=".toList ++ filter

/-- The variable `emptyData`, the text `"data": []`. -/
def emptyData : Str := ['"', 'd', 'a', 't', 'a', '"', ':', ' ', '[', ']']

/-- The function `getReverseResp(verifyUrl)`: a GET of `verifyUrl` through the
HTTP collaborator. As in `scan`, the deferred release of the
`*fasthttp.Response` is left out. -/
def getReverseResp (X : Externals) (verifyUrl : Str) (w : World) : Bool × World :=
  let origin : Request := { Url := ⟨verifyUrl⟩, Method := "GET".toList, Headers := [], Body := [] }
  match X.httpDo w origin false with
  | .error _ => (false, w.tick)
  | .ok response => (!Contains response.Body emptyData, w.tick)

/-- The function `VerifyReverse(r, timeout)`; the sleep of `timeout` seconds
changes nothing the model records. -/
def VerifyReverse (X : Externals) (G : Globals) (r : Reverse) (timeout : Int) (w : World) :
    Bool × World :=
  if G.reverseToken = [] then (false, w)
  else
    let _slept := timeout
    let dns := getReverseResp X (ceyeIoApi G.reverseToken "dns".toList r.Flag) w
    if dns.1 then (true, dns.2)
    else
      let http := getReverseResp X (ceyeIoApi G.reverseToken "http".toList r.Flag) dns.2
      if http.1 then (true, http.2)
      else (false, http.2)

/-- The built-in `wait` (`reverseWaitFunc.Binary`). -/
def reverseWaitFunc (X : Externals) (G : Globals) (w : World) (lhs rhs : CelVal) :
    CelVal × World :=
  match lhs with
  | .object (.reverse rev) =>
    match rhs with
    | .int timeout => (.bool (VerifyReverse X G rev timeout w).1, (VerifyReverse X G rev timeout w).2)
    | rhs => (valOrErr rhs "unexpected type '".toList "' passed to 'wait'".toList, w)
  | lhs => (valOrErr lhs "unexpected type '".toList "' passed to 'wait'".toList, w)

/-! ## Runs used to state the claims -/

/-- The rules of a list run one after the other, each in the world its
predecessor left, whatever their verdicts: the steps `Start` would make if it
never stopped early. -/
def stepsOf (X : Externals) (target : Str) : Scanner → List PocRule → World → List Step
  | _, [], _ => []
  | s, rule :: rest, w =>
    (ruleStep X s target rule w) ::
      stepsOf X target (ruleStep X s target rule w).scanner rest (ruleStep X s target rule w).world

/-- The rule returned a verdict with a nil error. -/
def Ret.isVerdict : Ret → Bool
  | .done _ none => true
  | _ => false

/-- The rule verified true. -/
def Ret.isTrue : Ret → Bool
  | .done true none => true
  | _ => false

/-- The request `scan` hands to `http.Do` for a substituted rule, with the
redirect flag; none when `SetupRequest` fails. -/
def dispatchOf (X : Externals) (target : Str) (rule : PocRule) : Option (Request × Bool) :=
  match X.buildRequest rule.Method (X.joinPath target rule.Path) rule.Body rule.Headers with
  | .error _ => none
  | .ok request => some (request, rule.FollowRedirects)

/-- The number of requests a step hands to `http.Do`: one, or none when
`SetupRequest` fails. -/
def Step.dispatches (X : Externals) (target : Str) (st : Step) : Nat :=
  (dispatchOf X target st.rule).toList.length

/-! ## Sample collaborators and PoCs for the concrete runs -/

/-- The formatting used by the concrete examples: a string prints as itself and
an integer in decimal, as `%v` does; objects print as `&{}`. -/
def sprintSample : Val → Str
  | .str s => s
  | .int i => (toString i).toList
  | _ => ['&', '{', '}']

/-- The pattern `token=(?P<tok>[a-z0-9]+)`. -/
def tokenPattern : Str := "token=(?P<tok>[a-z0-9]+)".toList

/-- The compiled `tokenPattern`, on the one body the sample server sends. -/
def tokenRegexp : Regexp :=
  { names := [[], "tok".toList]
    find := fun body => if body = "token=abc".toList then ["token=abc".toList, "abc".toList] else [] }

/-- Sample collaborators: a server answering every request with status 200 and
body `token=abc`; an evaluator knowing the literals `true` and `false`, the
variables bound to strings or integers, and `randomLowercase(3)`; a request
builder refusing a method that contains a space. -/
def sampleExternals : Externals where
  sprint := sprintSample
  sprintCel := fun out => match out with
    | .str s => s
    | _ => []
  rangeOrder := fun _ set => set
  joinPath := fun target path => target ++ path
  buildRequest := fun method url body headers =>
    if ' ' ∈ method then .error "malformed method".toList
    else .ok { Url := ⟨url⟩, Method := method, Headers := headers, Body := body }
  httpDo := fun _ _ _ =>
    .ok { StatusCode := 200, Header := [], ContentType := [], Body := "token=abc".toList }
  urlParse := fun u => .ok ⟨u⟩
  hostname := fun u => u.href
  toLower := fun x => x
  regexpCompile := fun re =>
    if re = tokenPattern then .ok tokenRegexp else .error "unsupported pattern".toList
  celProgram := fun _ expression => .ok expression
  celEval := fun _ f params =>
    if f = "true".toList then .ok (.bool true)
    else if f = "false".toList then .ok (.bool false)
    else if f = "randomLowercase(3)".toList then .ok (.str "xyz".toList)
    else match lookupKey f params with
      | some (.str v) => .ok (.str v)
      | some (.int v) => .ok (.int v)
      | _ => .error "undeclared reference".toList
  randLetterNumbers := fun _ n => List.replicate n 'a'
  randIntn := fun _ _ => 0

/-- A scanner without bindings. -/
def sampleScanner : Scanner := { env := ⟨[]⟩, set := [] }

/-- The initial world: nothing dispatched, both pools untouched. -/
def sampleWorld : World :=
  { clock := 0, log := [], requestsAcquired := 0, requestsReleased := 0,
    responsesAcquired := 0, responsesReleased := 0 }

/-- The target of the concrete runs. -/
def sampleTarget : Str := "http://host".toList

/-- A rule `GET path` with the given expression and no search. -/
def exprRule (path expression : Str) : PocRule :=
  { Method := "GET".toList, Path := path, Headers := [], Body := [],
    FollowRedirects := false, Search := [], Expression := expression }

/-- A rule that verifies true against the sample server. -/
def trueRule : PocRule := exprRule "/".toList "true".toList

/-- A rule that verifies false against the sample server. -/
def falseRule : PocRule := exprRule "/".toList "false".toList

/-- A rule extracting `tok` from the body of `/token`. -/
def tokenRule : PocRule :=
  { Method := "GET".toList, Path := "/token".toList, Headers := [], Body := [],
    FollowRedirects := false, Search := tokenPattern, Expression := [] }

/-- A rule using `tok` in its path. -/
def useRule : PocRule := exprRule "/use/{{tok}}".toList "true".toList

/-- A rule whose request cannot be built. -/
def malformedRule : PocRule :=
  { Method := "GE T".toList, Path := "/".toList, Headers := [], Body := [],
    FollowRedirects := false, Search := [], Expression := "true".toList }

/-- A PoC whose `set` lists `b` before `a`, `b` referring to `a`. -/
def sampleEvent : PocEvent :=
  { Name := "sample".toList
    Set := [("b".toList, "a".toList), ("a".toList, "randomLowercase(3)".toList)]
    Rules := [], Groups := [] }

/-- What Go's `regexp` guarantees of a compiled pattern: `SubexpNames` has an
entry for the whole match, and a match found by `FindStringSubmatch` has one
entry per entry of `SubexpNames`. -/
def Regexp.wellFormed (r : Regexp) : Prop :=
  0 < r.names.length ∧ ∀ body, r.find body = [] ∨ (r.find body).length = r.names.length

/-- The bindings `decode.Search` makes on success: group `i ≥ 1` is bound under
its name, an unnamed group under the empty name. -/
def bindGroups (names result : List Str) (set : Bindings) : Bindings :=
  (names.tail.zip result.tail).foldl (fun set p => setKey p.1 (.str p.2) set) set

/-- The compiled pattern `(a)`: one unnamed group. -/
def unnamedRegexp : Regexp :=
  { names := [[], []]
    find := fun body => if 'a' ∈ body then ["a".toList, "a".toList] else [] }

/-- The sample collaborators, with a `regexp.Compile` that knows the pattern `(a)`. -/
def groupExternals : Externals :=
  { sampleExternals with
    regexpCompile := fun re =>
      if re = "(a)".toList then .ok unnamedRegexp else .error "unsupported pattern".toList }

/-- The sample collaborators, with a `url.Parse` that refuses control
characters, as Go's does. -/
def strictExternals : Externals :=
  { sampleExternals with
    urlParse := fun u =>
      if u.any (fun c => c.toNat < 32 || c.toNat == 127) then
        .error "net/url: invalid control character in URL".toList
      else .ok ⟨u⟩ }

/-- A reverse configuration whose domain ends in a line feed. -/
def lineFeedGlobals : Globals :=
  { reverseDomain := "x.ceye.io\n".toList, reverseToken := "t".toList }

/-- A PoC whose `set` asks for a reverse handle. -/
def reverseEvent : PocEvent :=
  { Name := "reverse".toList
    Set := [("r".toList, "newReverse()".toList)]
    Rules := [], Groups := [] }

/-- A rule whose expression evaluates to a string. -/
def stringRule : PocRule := exprRule "/".toList "randomLowercase(3)".toList

/-- The entries `PocEvent.DecodeSet` hands to `decode.Evaluate`: those whose
value is neither empty nor the literal `newReverse()`. -/
def isExpression (pset : List (Str × Str)) (key : Str) : Bool :=
  (lookupKey key pset).getD [] != [] && (lookupKey key pset).getD [] != "newReverse()".toList

/-- The type test `valueSet.(map[string]string)` of `PocRule.DecodeSet`. -/
def Val.isStrMap : Val → Bool
  | .strmap _ => true
  | _ => false

/-- No `{{k}}` of a binding `k` that `PocRule.DecodeSet` substitutes occurs in
the path, the body or a header value of `r`. -/
def noHoleLeft (r : PocRule) (set : Bindings) : Bool :=
  set.all fun e => e.2.isStrMap ||
    (!Contains r.Path (hole e.1) && !Contains r.Body (hole e.1) &&
      r.Headers.all fun h => !Contains h.2 (hole e.1))

/-- Path and body carry no leading or trailing white space. -/
def trimmed (r : PocRule) : Bool :=
  TrimSpace r.Path == r.Path && TrimSpace r.Body == r.Body

/-- A rule whose path is the single hole `{{a}}`. -/
def holeRule : PocRule :=
  { Method := "GET".toList, Path := "{{a}}".toList, Headers := [], Body := [],
    FollowRedirects := false, Search := [], Expression := "true".toList }

/-! ## Templates, to state when substitution does not depend on the order -/

/-- A piece of a template: literal text, or the hole `{{k}}`. -/
inductive Piece where
  | text (t : Str)
  | slot (k : Str)
deriving DecidableEq, Repr

/-- The text of a piece. -/
def Piece.render : Piece → Str
  | .text t => t
  | .slot k => hole k

/-- The text of a template. -/
def renderPieces : List Piece → Str
  | [] => []
  | p :: ps => p.render ++ renderPieces ps

/-- The string contains no brace. -/
def braceFree (s : Str) : Bool := s.all fun c => c != '{' && c != '}'

/-- Text that cannot open a hole: it contains no `{{` and does not end in `{`. -/
def plainText : Str → Bool
  | [] => true
  | [c] => c != '{'
  | c :: d :: rest => !(c == '{' && d == '{') && plainText (d :: rest)

/-- A piece is literal text that cannot open a hole, or a hole whose name has
no brace. -/
def Piece.wellFormed : Piece → Bool
  | .text t => plainText t
  | .slot k => braceFree k

/-- The string is the text of a template: braces pair up only in holes
`{{k}}` with a brace-free `k`. -/
def isTemplate (s : Str) : Prop :=
  ∃ ps : List Piece, (∀ p ∈ ps, p.wellFormed = true) ∧ renderPieces ps = s

/-- The string neither begins nor ends with white space. -/
def edged (s : Str) : Bool :=
  (s.head?.all fun c => !isSpace c) && (s.getLast?.all fun c => !isSpace c)

/-- The hole `{{k}}` of a template filled with `v`. -/
def fill (k v : Str) : Piece → Piece
  | .slot k1 => if k1 = k then .text v else .slot k1
  | .text t => .text t

/-- A binding whose substitution cannot disturb another one: it is skipped by
`PocRule.DecodeSet`, or its key has no brace and its formatted value is
non-empty text that cannot open a hole and has no white space at either end. -/
def settledEntry (sprint : Val → Str) (e : Str × Val) : Bool :=
  e.2.isStrMap ||
    (braceFree e.1 && sprint e.2 != [] && plainText (sprint e.2) && edged (sprint e.2))

/-- Every field `PocRule.DecodeSet` substitutes is the text of a template, and
path and body have no white space at either end. -/
def templated (r : PocRule) : Prop :=
  isTemplate r.Path ∧ edged r.Path = true ∧ isTemplate r.Body ∧ edged r.Body = true ∧
    ∀ h ∈ r.Headers, isTemplate h.2

/-- Path and body, with the white space around them trimmed as
`PocRule.DecodeSet` trims them, and every header value are the text of a
template. -/
def templateRule (r : PocRule) : Prop :=
  isTemplate (TrimSpace r.Path) ∧ isTemplate (TrimSpace r.Body) ∧
    ∀ h ∈ r.Headers, isTemplate h.2

/-- The string is the text of a template none of whose holes is named in `K`. -/
def isTemplateWithout (K : List Str) (s : Str) : Prop :=
  ∃ ps : List Piece, (∀ p ∈ ps, p.wellFormed = true) ∧ renderPieces ps = s ∧
    ∀ k ∈ K, Piece.slot k ∉ ps

/-- Every field `PocRule.DecodeSet` substitutes is the text of a template
without a hole named in `K`, and path and body have no white space at either
end. -/
def templatedWithout (K : List Str) (r : PocRule) : Prop :=
  isTemplateWithout K r.Path ∧ edged r.Path = true ∧ isTemplateWithout K r.Body ∧
    edged r.Body = true ∧ ∀ h ∈ r.Headers, isTemplateWithout K h.2

/-- A rule probing `/echo/{{flag}}` with the body `{id:{{id}}}`, both written
with white space around them. -/
def jsonRule : PocRule :=
  { Method := "POST".toList, Path := " /echo/{{flag}}".toList,
    Headers := [("X-Flag".toList, "{{flag}}-{{id}}".toList)],
    Body := "{id:{{id}}} ".toList, FollowRedirects := false, Search := [],
    Expression := "true".toList }

/-- A rule whose path ends in the hole `{{a}}`. -/
def tailRule : PocRule :=
  { Method := "GET".toList, Path := "p{{a}}".toList, Headers := [], Body := [],
    FollowRedirects := false, Search := [], Expression := "true".toList }

/-! ## Facts about the string functions -/

theorem not_mem_replaceFrom (c : Char) (old new : Str) (hnew : c ∉ new) :
    ∀ (s : Str) (n : Nat), c ∉ s → c ∉ replaceFrom old new n s := by
  intro s
  induction s with
  | nil => intro n _; simp [replaceFrom]
  | cons a as ih =>
    intro n hs
    have has : c ∉ as := fun h => hs (List.mem_cons_of_mem _ h)
    have hca : c ≠ a := fun h => hs (h ▸ List.mem_cons_self _ _)
    cases n with
    | succ k => simpa [replaceFrom] using ih k has
    | zero =>
      unfold replaceFrom
      split
      · simp only [List.mem_append, not_or]
        exact ⟨hnew, ih _ has⟩
      · simp only [List.mem_cons, not_or]
        exact ⟨hca, ih 0 has⟩

theorem not_mem_ReplaceAll_of_not_mem (c : Char) (s old new : Str) (hold : old ≠ [])
    (hnew : c ∉ new) (hs : c ∉ s) : c ∉ ReplaceAll s old new := by
  unfold ReplaceAll
  split_ifs with h1
  · exact hs
  · exact not_mem_replaceFrom c old new hnew s 0 hs

theorem not_mem_replaceFrom_single (c : Char) (new : Str) (hnew : c ∉ new) :
    ∀ (s : Str), c ∉ replaceFrom [c] new 0 s := by
  intro s
  induction s with
  | nil => simp [replaceFrom]
  | cons a as ih =>
    unfold replaceFrom
    by_cases h : a = c
    · subst h
      simp only [List.isPrefixOf, beq_self_eq_true, Bool.and_self, if_true,
        List.length_singleton, Nat.sub_self, Bool.true_and]
      simp only [List.mem_append, not_or]
      exact ⟨hnew, ih⟩
    · have h' : (c == a) = false := by simpa using fun e => h e.symm
      simp only [List.isPrefixOf, h', Bool.false_and, Bool.false_eq_true, if_false,
        List.mem_cons, not_or]
      exact ⟨fun e => h e.symm, ih⟩

theorem not_mem_ReplaceAll_single (c : Char) (s new : Str) (hnew : c ∉ new) :
    c ∉ ReplaceAll s [c] new := by
  unfold ReplaceAll
  split_ifs with h1 h2
  · exact absurd (h1 ▸ List.mem_singleton_self c) hnew
  · exact absurd h2 (by simp)
  · exact not_mem_replaceFrom_single c new hnew s


theorem replaceFrom_of_not_contains (old new : Str) :
    ∀ s : Str, Contains s old = false → replaceFrom old new 0 s = s := by
  intro s
  induction s with
  | nil => intro _; rfl
  | cons c cs ih =>
    intro h
    rw [Contains, Bool.or_eq_false_iff] at h
    rw [replaceFrom, if_neg (by simp [h.1]), ih h.2]

theorem ReplaceAll_of_not_contains (s old new : Str) (h : Contains s old = false) :
    ReplaceAll s old new = s := by
  unfold ReplaceAll
  split_ifs with h1 h2
  · rfl
  · subst h2
    cases s <;> simp [Contains, List.isPrefixOf] at h
  · exact replaceFrom_of_not_contains old new s h

theorem not_contains_single (c : Char) : ∀ s : Str, c ∉ s → Contains s [c] = false := by
  intro s
  induction s with
  | nil => intro _; rfl
  | cons a as ih =>
    intro h
    rw [List.mem_cons, not_or] at h
    rw [Contains, ih h.2]
    simp [List.isPrefixOf, h.1]

theorem decodeEntry_fixed (sprint : Val → Str) (r : PocRule) (e : Str × Val)
    (ht : trimmed r = true)
    (hh : (e.2.isStrMap || (!Contains r.Path (hole e.1) && !Contains r.Body (hole e.1) &&
      r.Headers.all fun h => !Contains h.2 (hole e.1))) = true) :
    decodeEntry sprint r e = r := by
  obtain ⟨k, v⟩ := e
  have hmap : ∀ value : Str, (∀ h ∈ r.Headers, Contains h.2 (hole k) = false) →
      r.Headers.map (fun h => (h.1, ReplaceAll h.2 (hole k) value)) = r.Headers := by
    intro value hhd
    conv_rhs => rw [← List.map_id r.Headers]
    refine List.map_congr_left fun h hmem => ?_
    rw [ReplaceAll_of_not_contains _ _ _ (hhd h hmem)]
    rfl
  cases v with
  | strmap m => rfl
  | _ =>
    simp only [Val.isStrMap, Bool.false_or, Bool.and_eq_true, Bool.not_eq_true',
      List.all_eq_true] at hh
    simp only [trimmed, Bool.and_eq_true, beq_iff_eq] at ht
    obtain ⟨⟨hp, hb⟩, hhd⟩ := hh
    simp only [decodeEntry, ht.1, ht.2, ReplaceAll_of_not_contains _ _ _ hp,
      ReplaceAll_of_not_contains _ _ _ hb]
    rw [hmap _ hhd]

theorem foldl_decodeEntry_fixed (sprint : Val → Str) (r : PocRule) (ht : trimmed r = true) :
    ∀ set : Bindings, noHoleLeft r set = true → set.foldl (decodeEntry sprint) r = r := by
  intro set
  induction set with
  | nil => intro _; rfl
  | cons e es ih =>
    intro h
    simp only [noHoleLeft, List.all_cons, Bool.and_eq_true] at h
    rw [List.foldl_cons, decodeEntry_fixed sprint r e ht h.1]
    exact ih h.2

theorem DecodeSet_path_free (sprint : Val → Str) (r : PocRule) (set : Bindings) :
    ' ' ∉ (r.DecodeSet sprint set).Path ∧ '+' ∉ (r.DecodeSet sprint set).Path := by
  simp only [PocRule.DecodeSet]
  constructor
  · apply not_mem_ReplaceAll_of_not_mem _ _ _ _ (by simp) (by decide)
    exact not_mem_ReplaceAll_single _ _ _ (by decide)
  · exact not_mem_ReplaceAll_single _ _ _ (by decide)

theorem wrapInt64_of_range (x : Int) (h0 : -(2 ^ 63) ≤ x) (h1 : x < 2 ^ 63) : wrapInt64 x = x := by
  unfold wrapInt64
  rw [Int.emod_eq_of_lt (by omega) (by omega)]
  omega

/-- Where the `int64` sum `start + length` does not overflow, `substr` returns
an error value exactly when `start < 0`, `length < 0` or `start + length`
exceeds the number of code points, and the code points `start ..
start+length-1` otherwise. -/
theorem substrFunc_without_overflow (str : Str) (start length : Int)
    (hlo : -(2 ^ 63) ≤ start + length) (hhi : start + length < 2 ^ 63) :
    substrFunc [.str str, .int start, .int length] =
      if start < 0 ∨ length < 0 ∨ start + length > str.length then
        .value (.err "invalid start or length to 'substr'".toList)
      else .value (.str ((str.drop start.toNat).take length.toNat)) := by
  simp only [substrFunc, wrapInt64_of_range _ hlo hhi]
  split_ifs with h
  · rfl
  · simp only [not_or, not_lt, gt_iff_lt] at h
    obtain ⟨h1, h2, h3⟩ := h
    have hs : sliceRunes str start (start + length) =
        .value ((str.take (start + length).toNat).drop start.toNat) := by
      unfold sliceRunes
      rw [if_pos ⟨h1, by omega, h3⟩]
    rw [hs]
    simp only
    congr 2
    rw [List.drop_take]
    congr 1
    omega

theorem setKey_of_fresh {β : Type} (k : Str) (v : β) :
    ∀ l : List (Str × β), (∀ e ∈ l, e.1 ≠ k) → setKey k v l = l ++ [(k, v)] := by
  intro l
  induction l with
  | nil => intro _; rfl
  | cons e es ih =>
    intro h
    obtain ⟨k', v'⟩ := e
    have hk : k' ≠ k := h (k', v') (List.mem_cons_self _ _)
    rw [setKey, if_neg hk, ih (fun e he => h e (List.mem_cons_of_mem _ he))]
    rfl

theorem lookupKey_append_of_fresh {β : Type} (k : Str) (l2 : List (Str × β)) :
    ∀ l1 : List (Str × β), (∀ e ∈ l1, e.1 ≠ k) → lookupKey k (l1 ++ l2) = lookupKey k l2 := by
  intro l1
  induction l1 with
  | nil => intro _; rfl
  | cons e es ih =>
    intro h
    obtain ⟨k', v'⟩ := e
    have hk : k' ≠ k := h (k', v') (List.mem_cons_self _ _)
    rw [List.cons_append, lookupKey, if_neg hk]
    exact ih (fun e he => h e (List.mem_cons_of_mem _ he))

theorem lookupKey_of_fresh {β : Type} (k : Str) (l : List (Str × β))
    (h : ∀ e ∈ l, e.1 ≠ k) : lookupKey k l = none := by
  have h1 := lookupKey_append_of_fresh k ([] : List (Str × β)) l h
  rw [List.append_nil] at h1
  exact h1

theorem decodeKeys_spec (X : Externals) (G : Globals) (env : CelEnv) (pset : List (Str × Str)) :
    ∀ (keys : List Str) (run : SetRun), keys.Sorted (· < ·) →
      (∀ k ∈ keys, ∀ e ∈ run.set, e.1 < k) →
      ∃ ext tr,
        (decodeKeys X G env pset keys run).set = run.set ++ ext ∧
        (∀ e ∈ ext, e.1 ∈ keys) ∧
        (decodeKeys X G env pset keys run).calls = run.calls ++ tr ∧
        (tr.map Prod.fst).Sublist keys ∧
        (∀ c ∈ tr, c.2 = (decodeKeys X G env pset keys run).set.filter (fun e => e.1 < c.1)) ∧
        ((decodeKeys X G env pset keys run).panicked = false →
          tr.map Prod.fst = keys.filter (isExpression pset)) ∧
        (∀ c ∈ tr, ∃ w1 : World,
          (∀ out, Evaluate X w1 env ((lookupKey c.1 pset).getD []) c.2 = .ok out →
            lookupKey c.1 (decodeKeys X G env pset keys run).set = some (bindingOf X out)) ∧
          (∀ e, Evaluate X w1 env ((lookupKey c.1 pset).getD []) c.2 = .error e →
            lookupKey c.1 (decodeKeys X G env pset keys run).set = none)) := by
  intro keys
  induction keys with
  | nil => intro run _ _; exact ⟨[], [], by simp [decodeKeys]⟩
  | cons key keys ih =>
    intro run hsorted hinv
    have hkeys : keys.Sorted (· < ·) := hsorted.of_cons
    have hlt : ∀ k ∈ keys, key < k := fun k hk => List.rel_of_sorted_cons hsorted k hk
    have hold : ∀ e ∈ run.set, e.1 < key := hinv key (List.mem_cons_self _ _)
    have hfresh : ∀ e ∈ run.set, e.1 ≠ key := fun e he => ne_of_lt (hold e he)
    have cont : ∀ (run1 : SetRun) (ext1 : Bindings) (b : Bool),
        run1.set = run.set ++ ext1 → (∀ e ∈ ext1, e.1 = key) →
        run1.calls = run.calls ++ (if b then [(key, run.set)] else []) →
        isExpression pset key = b →
        (b = true → ∃ w1 : World,
          (∀ out, Evaluate X w1 env ((lookupKey key pset).getD []) run.set = .ok out →
            ext1 = [(key, bindingOf X out)]) ∧
          (∀ e, Evaluate X w1 env ((lookupKey key pset).getD []) run.set = .error e →
            ext1 = [])) →
        ∃ ext tr,
          (decodeKeys X G env pset keys run1).set = run.set ++ ext ∧
          (∀ e ∈ ext, e.1 ∈ key :: keys) ∧
          (decodeKeys X G env pset keys run1).calls = run.calls ++ tr ∧
          (tr.map Prod.fst).Sublist (key :: keys) ∧
          (∀ c ∈ tr, c.2 = (decodeKeys X G env pset keys run1).set.filter (fun e => e.1 < c.1)) ∧
          ((decodeKeys X G env pset keys run1).panicked = false →
            tr.map Prod.fst = (key :: keys).filter (isExpression pset)) ∧
          (∀ c ∈ tr, ∃ w1 : World,
            (∀ out, Evaluate X w1 env ((lookupKey c.1 pset).getD []) c.2 = .ok out →
              lookupKey c.1 (decodeKeys X G env pset keys run1).set = some (bindingOf X out)) ∧
            (∀ e, Evaluate X w1 env ((lookupKey c.1 pset).getD []) c.2 = .error e →
              lookupKey c.1 (decodeKeys X G env pset keys run1).set = none)) := by
      intro run1 ext1 b hset hext1 hcalls hb hev
      have hinv1 : ∀ k ∈ keys, ∀ e ∈ run1.set, e.1 < k := by
        intro k hk e he
        rw [hset, List.mem_append] at he
        rcases he with he | he
        · exact hinv k (List.mem_cons_of_mem _ hk) e he
        · rw [hext1 e he]; exact hlt k hk
      obtain ⟨ext', tr', h1, h2, h3, h4, h5, h6, h7⟩ := ih run1 hkeys hinv1
      refine ⟨ext1 ++ ext', (if b then [(key, run.set)] else []) ++ tr', ?_, ?_, ?_, ?_, ?_, ?_,
        ?_⟩
      · rw [h1, hset, List.append_assoc]
      · intro e he
        rw [List.mem_append] at he
        rcases he with he | he
        · rw [hext1 e he]; exact List.mem_cons_self _ _
        · exact List.mem_cons_of_mem _ (h2 e he)
      · rw [h3, hcalls, List.append_assoc]
      · cases b
        · simpa using h4.cons key
        · simpa using h4.cons₂ key
      · intro c hc
        rw [List.mem_append] at hc
        rcases hc with hc | hc
        · cases b
          · simp at hc
          · simp only [if_true, List.mem_singleton] at hc
            subst hc
            rw [h1, hset, List.append_assoc, List.filter_append]
            have e1 : run.set.filter (fun e => decide (e.1 < key)) = run.set :=
              List.filter_eq_self.2 (fun e he => by simpa using hold e he)
            have e2 : (ext1 ++ ext').filter (fun e => decide (e.1 < key)) = [] := by
              rw [List.filter_eq_nil_iff]
              intro e he
              rw [List.mem_append] at he
              rcases he with he | he
              · simp [hext1 e he]
              · simpa using le_of_lt (hlt _ (h2 e he))
            rw [e1, e2, List.append_nil]
        · exact h5 c hc
      · intro hp
        rw [List.map_append, h6 hp, List.filter_cons, hb]
        cases b <;> simp
      · intro c hc
        rw [List.mem_append] at hc
        rcases hc with hc | hc
        · cases b
          · simp at hc
          · simp only [if_true, List.mem_singleton] at hc
            subst hc
            obtain ⟨w1, hok, herr⟩ := hev rfl
            have hlater : ∀ e ∈ ext', e.1 ≠ key := fun e he => (ne_of_lt (hlt _ (h2 e he))).symm
            refine ⟨w1, ?_, ?_⟩
            · intro out hout
              rw [h1, hset, List.append_assoc, lookupKey_append_of_fresh key _ run.set hfresh,
                hok out hout]
              simp [lookupKey]
            · intro e he
              rw [h1, hset, List.append_assoc, lookupKey_append_of_fresh key _ run.set hfresh,
                herr e he, List.nil_append]
              exact lookupKey_of_fresh key ext' hlater
        · exact h7 c hc
    generalize hfin : decodeKeys X G env pset (key :: keys) run = fin
    rw [decodeKeys] at hfin
    by_cases hv : (lookupKey key pset).getD [] = []
    · rw [if_pos hv] at hfin
      subst hfin
      exact cont run [] false (by simp) (by simp) (by simp) (by simp [isExpression, hv])
        (fun h => Bool.noConfusion h)
    · rw [if_neg hv] at hfin
      by_cases hr : (lookupKey key pset).getD [] = "newReverse()".toList
      · rw [if_pos hr] at hfin
        have hb : isExpression pset key = false := by simp [isExpression, hr]
        rcases hnr : NewReverse X G run.world with ⟨o, w⟩
        rw [hnr] at hfin
        cases o with
        | panic =>
          simp only at hfin
          subst hfin
          exact ⟨[], [], by simp, by simp, by simp, by simp, by simp, by simp, by simp⟩
        | value rv =>
          simp only at hfin
          subst hfin
          exact cont _ [(key, .reverse rv)] false (setKey_of_fresh _ _ _ hfresh)
            (by simp) (by simp) hb (fun h => Bool.noConfusion h)
      · rw [if_neg hr] at hfin
        have hb : isExpression pset key = true := by
          unfold isExpression
          rw [Bool.and_eq_true]
          exact ⟨bne_iff_ne.2 hv, bne_iff_ne.2 hr⟩
        cases hev : Evaluate X run.world env ((lookupKey key pset).getD []) run.set with
        | error e =>
          rw [hev] at hfin
          simp only at hfin
          subst hfin
          exact cont _ [] true (by simp) (by simp) (by simp) hb
            (fun _ => ⟨run.world, by rw [hev]; simp, by rw [hev]; simp⟩)
        | ok out =>
          rw [hev] at hfin
          simp only at hfin
          subst hfin
          exact cont _ [(key, bindingOf X out)] true (setKey_of_fresh _ _ _ hfresh)
            (by simp) (by simp) hb
            (fun _ => ⟨run.world, by rw [hev]; simp, by rw [hev]; simp⟩)

/-! ## Facts about `scan` and `Start` -/

theorem scan_scanner (X : Externals) (s : Scanner) (target : Str) (rule : PocRule) (w : World) :
    (scan X s target rule w).scanner = s := by
  unfold scan
  dsimp only
  repeat' split
  all_goals rfl

theorem scan_log (X : Externals) (s : Scanner) (target : Str) (rule : PocRule) (w : World) :
    (scan X s target rule w).world.log = w.log ++ (dispatchOf X target rule).toList := by
  unfold dispatchOf
  cases hb : X.buildRequest rule.Method (X.joinPath target rule.Path) rule.Body rule.Headers with
  | error e => simp [scan, SetupRequest, hb]
  | ok request =>
    cases hu : X.urlParse request.Url.href <;>
      simp only [scan, SetupRequest, SetupResponse, hb, hu, Option.toList] <;>
      repeat' split
    all_goals rfl

theorem scan_verdict_dispatched (X : Externals) (s : Scanner) (target : Str) (rule : PocRule)
    (w : World) (v : Bool) (h : (scan X s target rule w).ret = .done v none) :
    (dispatchOf X target rule).isSome = true := by
  unfold dispatchOf
  cases hb : X.buildRequest rule.Method (X.joinPath target rule.Path) rule.Body rule.Headers with
  | error e => simp [scan, SetupRequest, hb] at h
  | ok request => rfl

theorem releaseRequestOf_log (s : Scanner) (w w1 : World)
    (h : releaseRequestOf s w = .value w1) : w1.log = w.log := by
  unfold releaseRequestOf at h
  split at h
  · cases h; rfl
  · cases h; rfl
  · cases h

theorem releaseResponseOf_log (s : Scanner) (w w1 : World)
    (h : releaseResponseOf s w = .value w1) : w1.log = w.log := by
  unfold releaseResponseOf at h
  split at h
  · cases h; rfl
  · cases h; rfl
  · cases h

theorem ruleStep_scanner (X : Externals) (s : Scanner) (target : Str) (rule : PocRule)
    (w : World) : (ruleStep X s target rule w).scanner = s := by
  unfold ruleStep
  dsimp only
  repeat' split
  all_goals exact scan_scanner X s target _ _

theorem ruleStep_rule (X : Externals) (s : Scanner) (target : Str) (rule : PocRule)
    (w : World) :
    (ruleStep X s target rule w).rule = rule.DecodeSet X.sprint (X.rangeOrder w s.set) := by
  unfold ruleStep
  dsimp only
  repeat' split
  all_goals rfl

theorem ruleStep_log (X : Externals) (s : Scanner) (target : Str) (rule : PocRule)
    (w : World) :
    (ruleStep X s target rule w).world.log =
      w.log ++ (dispatchOf X target (ruleStep X s target rule w).rule).toList := by
  rw [ruleStep_rule]
  have hs := scan_log X s target (rule.DecodeSet X.sprint (X.rangeOrder w s.set)) w.tick
  unfold ruleStep
  dsimp only
  split
  · exact hs
  · split
    · exact hs
    · rename_i w1 h1
      split
      · rw [releaseRequestOf_log _ _ _ h1]; exact hs
      · rename_i w2 h2
        rw [releaseResponseOf_log _ _ _ h2, releaseRequestOf_log _ _ _ h1]; exact hs

theorem ruleStep_verdict_dispatched (X : Externals) (s : Scanner) (target : Str)
    (rule : PocRule) (w : World) (v : Bool)
    (h : (ruleStep X s target rule w).ret = .done v none) :
    (dispatchOf X target (ruleStep X s target rule w).rule).isSome = true := by
  rw [ruleStep_rule]
  apply scan_verdict_dispatched X s target _ w.tick v
  unfold ruleStep at h
  dsimp only at h
  split at h
  · cases h
  · rename_i verify err hret
    split at h
    · cases h
    · split at h
      · cases h
      · simp only [Ret.done.injEq] at h
        rw [hret, h.1, h.2]

theorem startLoop_cons_true (X : Externals) (target : Str) (s : Scanner) (verify : Bool)
    (rule : PocRule) (rest : List PocRule) (w : World)
    (h : (ruleStep X s target rule w).ret = .done true none) :
    startLoop X target s verify (rule :: rest) w =
      ⟨(startLoop X target (ruleStep X s target rule w).scanner true rest
          (ruleStep X s target rule w).world).ret,
       (startLoop X target (ruleStep X s target rule w).scanner true rest
          (ruleStep X s target rule w).world).scanner,
       (ruleStep X s target rule w).rule ::
         (startLoop X target (ruleStep X s target rule w).scanner true rest
          (ruleStep X s target rule w).world).rules,
       (startLoop X target (ruleStep X s target rule w).scanner true rest
          (ruleStep X s target rule w).world).world⟩ := by
  rw [startLoop]
  dsimp only
  split <;> simp_all

theorem startLoop_cons_stop (X : Externals) (target : Str) (s : Scanner) (verify : Bool)
    (rule : PocRule) (rest : List PocRule) (w : World)
    (h : (ruleStep X s target rule w).ret ≠ .done true none) :
    startLoop X target s verify (rule :: rest) w =
      ⟨(ruleStep X s target rule w).ret, (ruleStep X s target rule w).scanner,
       (ruleStep X s target rule w).rule :: rest, (ruleStep X s target rule w).world⟩ := by
  rw [startLoop]
  dsimp only
  split <;> simp_all

theorem isTrue_iff (r : Ret) : r.isTrue = true ↔ r = .done true none := by
  cases r with
  | panicked => simp [Ret.isTrue]
  | done v e => cases v <;> cases e <;> simp [Ret.isTrue]

theorem startLoop_true_ret (X : Externals) (target : Str) :
    ∀ (rules : List PocRule) (s : Scanner) (w : World),
      (∀ st ∈ stepsOf X target s rules w, st.ret.isVerdict = true) →
      (startLoop X target s true rules w).ret =
        .done ((stepsOf X target s rules w).all fun st => st.ret.isTrue) none := by
  intro rules
  induction rules with
  | nil => intro s w _; rfl
  | cons rule rest ih =>
    intro s w h
    rw [stepsOf] at h ⊢
    have h0 := h _ (List.mem_cons_self _ _)
    have hrest := fun st hst => h st (List.mem_cons_of_mem _ hst)
    by_cases ht : (ruleStep X s target rule w).ret = .done true none
    · rw [startLoop_cons_true X target s true rule rest w ht]
      simp only [List.all_cons, ht, Ret.isTrue, Bool.true_and]
      exact ih _ _ hrest
    · rw [startLoop_cons_stop X target s true rule rest w ht]
      have hf : (ruleStep X s target rule w).ret.isTrue = false := by
        rw [← Bool.not_eq_true, isTrue_iff]; exact ht
      simp only [List.all_cons, hf, Bool.false_and]
      revert h0 ht
      cases (ruleStep X s target rule w).ret with
      | panicked => simp [Ret.isVerdict]
      | done v e => cases v <;> cases e <;> simp [Ret.isVerdict]

theorem filterMap_take_succ_length {α β : Type} (f : α → Option β) :
    ∀ (l : List α) (i : Nat), i < l.length → (∀ a ∈ l.take i, (f a).isSome = true) →
      ((l.take (i + 1)).filterMap f).length = i + ((l.get? i).bind f).toList.length := by
  intro l
  induction l with
  | nil => intro i hi; simp at hi
  | cons a as ih =>
    intro i hi h
    cases i with
    | zero => cases hfa : f a <;> simp [List.filterMap_cons, hfa]
    | succ j =>
      have ha : (f a).isSome = true := h a (by simp)
      obtain ⟨b, hb⟩ := Option.isSome_iff_exists.1 ha
      have := ih j (by simpa using hi) (fun x hx => h x (by simp [hx]))
      simp only [List.take_succ_cons, List.filterMap_cons, hb, List.length_cons, this,
        List.get?_cons_succ]
      omega

theorem startLoop_stops (X : Externals) (target : Str) :
    ∀ (rules : List PocRule) (s : Scanner) (verify : Bool) (w : World) (i : Nat),
      i < rules.length →
      (∀ st ∈ (stepsOf X target s rules w).take i, st.ret = .done true none) →
      (∀ st, (stepsOf X target s rules w).get? i = some st → st.ret ≠ .done true none) →
      (startLoop X target s verify rules w).world.log =
          w.log ++ ((stepsOf X target s rules w).take (i + 1)).filterMap
            (fun st => dispatchOf X target st.rule) ∧
      (startLoop X target s verify rules w).rules =
          ((stepsOf X target s rules w).take (i + 1)).map (fun st => st.rule) ++
            rules.drop (i + 1) ∧
      (∀ st, (stepsOf X target s rules w).get? i = some st →
          (startLoop X target s verify rules w).ret = st.ret) := by
  intro rules
  induction rules with
  | nil => intro s verify w i hi; simp at hi
  | cons rule rest ih =>
    intro s verify w i hi hbefore hat
    rw [stepsOf] at hbefore hat ⊢
    cases i with
    | zero =>
      have hstop := hat _ rfl
      rw [startLoop_cons_stop X target s verify rule rest w hstop]
      refine ⟨?_, ?_, ?_⟩
      · rw [ruleStep_log]
        cases hd : dispatchOf X target (ruleStep X s target rule w).rule <;>
          simp [List.filterMap_cons, hd]
      · simp
      · intro st hst
        simp only [List.get?_cons_zero, Option.some.injEq] at hst
        rw [← hst]
    | succ j =>
      have ht : (ruleStep X s target rule w).ret = .done true none :=
        hbefore _ (by simp)
      rw [startLoop_cons_true X target s verify rule rest w ht]
      obtain ⟨h1, h2, h3⟩ := ih (ruleStep X s target rule w).scanner true
        (ruleStep X s target rule w).world j (by simpa using hi)
        (fun st hst => hbefore st (by simp [hst]))
        (fun st hst => hat st (by simpa using hst))
      refine ⟨?_, ?_, ?_⟩
      · simp only [h1, ruleStep_log X s target rule w, List.take_succ_cons, List.filterMap_cons]
        obtain ⟨b, hb⟩ := Option.isSome_iff_exists.1 (ruleStep_verdict_dispatched X s target rule w true ht)
        simp [hb]
      · simp [h2]
      · intro st hst
        exact h3 st (by simpa using hst)

theorem startLoop_scanner (X : Externals) (target : Str) :
    ∀ (rules : List PocRule) (s : Scanner) (verify : Bool) (w : World),
      (startLoop X target s verify rules w).scanner = s := by
  intro rules
  induction rules with
  | nil => intro s verify w; rfl
  | cons rule rest ih =>
    intro s verify w
    by_cases ht : (ruleStep X s target rule w).ret = .done true none
    · rw [startLoop_cons_true X target s verify rule rest w ht]
      exact (ih _ _ _).trans (ruleStep_scanner X s target rule w)
    · rw [startLoop_cons_stop X target s verify rule rest w ht]
      exact ruleStep_scanner X s target rule w

theorem scan_released (X : Externals) (s : Scanner) (target : Str) (rule : PocRule) (w : World) :
    (scan X s target rule w).world.requestsReleased = w.requestsReleased ∧
    (scan X s target rule w).world.responsesReleased = w.responsesReleased := by
  cases hb : X.buildRequest rule.Method (X.joinPath target rule.Path) rule.Body rule.Headers with
  | error e => simp [scan, SetupRequest, hb]
  | ok request =>
    cases hu : X.urlParse request.Url.href <;>
      simp only [scan, SetupRequest, SetupResponse, hb, hu] <;>
      repeat' split
    all_goals exact ⟨rfl, rfl⟩

theorem ruleStep_released (X : Externals) (s : Scanner) (target : Str) (rule : PocRule)
    (w : World) (hreq : lookupKey "request".toList s.set = none)
    (hresp : lookupKey "response".toList s.set = none) :
    (ruleStep X s target rule w).world.requestsReleased = w.requestsReleased ∧
    (ruleStep X s target rule w).world.responsesReleased = w.responsesReleased := by
  have hs := scan_released X s target (rule.DecodeSet X.sprint (X.rangeOrder w s.set)) w.tick
  have hsc := scan_scanner X s target (rule.DecodeSet X.sprint (X.rangeOrder w s.set)) w.tick
  have h1 : ∀ w1, releaseRequestOf s w1 = .value w1 := by
    intro w1; unfold releaseRequestOf; rw [hreq]
  have h2 : ∀ w1, releaseResponseOf s w1 = .value w1 := by
    intro w1; unfold releaseResponseOf; rw [hresp]
  unfold ruleStep
  simp only [hsc, h1, h2]
  split
  · exact hs
  · exact hs

/-- Where the bindings of the scanner hold neither `request` nor `response`,
which is so for every scanner made by `New` from a `set` without these two keys,
`Start` returns no object to either pool, whatever it acquired. -/
theorem startLoop_releases_nothing (X : Externals) (target : Str) (s : Scanner)
    (hreq : lookupKey "request".toList s.set = none)
    (hresp : lookupKey "response".toList s.set = none) :
    ∀ (rules : List PocRule) (verify : Bool) (w : World),
      (startLoop X target s verify rules w).world.requestsReleased = w.requestsReleased ∧
      (startLoop X target s verify rules w).world.responsesReleased = w.responsesReleased := by
  intro rules
  induction rules with
  | nil => intro verify w; exact ⟨rfl, rfl⟩
  | cons rule rest ih =>
    intro verify w
    have hstep := ruleStep_released X s target rule w hreq hresp
    by_cases ht : (ruleStep X s target rule w).ret = .done true none
    · rw [startLoop_cons_true X target s verify rule rest w ht, ruleStep_scanner]
      have := ih true (ruleStep X s target rule w).world
      exact ⟨this.1.trans hstep.1, this.2.trans hstep.2⟩
    · rw [startLoop_cons_stop X target s verify rule rest w ht]
      exact hstep

theorem stepsOf_length (X : Externals) (target : Str) :
    ∀ (rules : List PocRule) (s : Scanner) (w : World),
      (stepsOf X target s rules w).length = rules.length := by
  intro rules
  induction rules with
  | nil => intro s w; rfl
  | cons rule rest ih => intro s w; rw [stepsOf, List.length_cons, ih, List.length_cons]

theorem startLoop_stable (X : Externals) (s : Scanner) (target : Str) (S : PocRule → Prop)
    (v : PocRule → Bool)
    (hstable : ∀ r, S r → ∀ w, (ruleStep X s target r w).ret = .done (v r) none ∧
      S (ruleStep X s target r w).rule ∧ v (ruleStep X s target r w).rule = v r) :
    ∀ (rules : List PocRule) (verify : Bool) (w : World), (∀ r ∈ rules, S r) →
      (startLoop X target s verify rules w).ret =
          .done (match rules with | [] => verify | _ :: _ => rules.all v) none ∧
      (startLoop X target s verify rules w).scanner = s ∧
      (∀ r ∈ (startLoop X target s verify rules w).rules, S r) ∧
      (startLoop X target s verify rules w).rules.all v = rules.all v ∧
      (startLoop X target s verify rules w).rules.length = rules.length := by
  intro rules
  induction rules with
  | nil => intro verify w _; simp [startLoop]
  | cons rule rest ih =>
    intro verify w hS
    obtain ⟨hret, hS1, hv1⟩ := hstable rule (hS rule (List.mem_cons_self _ _)) w
    have hrest : ∀ r ∈ rest, S r := fun r hr => hS r (List.mem_cons_of_mem _ hr)
    have hsc := ruleStep_scanner X s target rule w
    cases hv : v rule with
    | false =>
      rw [hv] at hret hv1
      rw [startLoop_cons_stop X target s verify rule rest w (by rw [hret]; simp)]
      refine ⟨by simp [hret, hv], hsc, ?_, by simp [hv, hv1], by simp⟩
      intro r hr
      rcases List.mem_cons.1 hr with h | h
      · rw [h]; exact hS1
      · exact hrest r h
    | true =>
      rw [hv] at hret hv1
      rw [startLoop_cons_true X target s verify rule rest w hret, hsc]
      obtain ⟨i1, i2, i3, i4, i5⟩ := ih true (ruleStep X s target rule w).world hrest
      refine ⟨?_, i2, ?_, by simp [hv, hv1, i4], by simp [i5]⟩
      · rw [i1]
        cases rest <;> simp [hv]
      · intro r hr
        rcases List.mem_cons.1 hr with h | h
        · rw [h]; exact hS1
        · exact i3 r h

theorem groupLoop_passes (X : Externals) (s : Scanner) (target : Str) (S : PocRule → Prop)
    (v : PocRule → Bool)
    (hstable : ∀ r, S r → ∀ w, (ruleStep X s target r w).ret = .done (v r) none ∧
      S (ruleStep X s target r w).rule ∧ v (ruleStep X s target r w).rule = v r)
    (rules : List PocRule) (n : Nat) (verify : Bool) (w : World) (hS : ∀ r ∈ rules, S r)
    (hne : rules ≠ []) (hall : rules.all v = true) :
    (groupLoop X target (n + 1) s verify rules w).ret = some (.done true none) := by
  obtain ⟨h1, _⟩ := startLoop_stable X s target S v hstable rules false w hS
  rw [groupLoop]
  have hret : (Start X s target rules w).ret = .done true none := by
    rw [Start, h1]
    cases rules with
    | nil => exact absurd rfl hne
    | cons a as => rw [hall]
  split <;> simp_all

theorem groupLoop_fails (X : Externals) (s : Scanner) (target : Str) (S : PocRule → Prop)
    (v : PocRule → Bool)
    (hstable : ∀ r, S r → ∀ w, (ruleStep X s target r w).ret = .done (v r) none ∧
      S (ruleStep X s target r w).rule ∧ v (ruleStep X s target r w).rule = v r) :
    ∀ (n : Nat) (rules : List PocRule) (w : World), (∀ r ∈ rules, S r) → rules ≠ [] →
      rules.all v = false →
      (groupLoop X target n s false rules w).ret = none ∧
      (groupLoop X target n s false rules w).verify = false ∧
      (groupLoop X target n s false rules w).scanner = s := by
  intro n
  induction n with
  | zero => intro rules w _ _ _; simp [groupLoop]
  | succ n ih =>
    intro rules w hS hne hall
    obtain ⟨h1, h2, h3, h4, h5⟩ := startLoop_stable X s target S v hstable rules false w hS
    have hret : (Start X s target rules w).ret = .done false none := by
      rw [Start, h1]
      cases rules with
      | nil => exact absurd rfl hne
      | cons a as => rw [hall]
    have hne1 : (Start X s target rules w).rules ≠ [] := by
      intro h
      rw [Start] at h
      rw [h] at h5
      exact hne (List.length_eq_zero.1 h5.symm)
    have hnext := ih (Start X s target rules w).rules (Start X s target rules w).world
      h3 hne1 (by rw [Start, h4]; exact hall)
    have hsc : (Start X s target rules w).scanner = s := h2
    rw [groupLoop]
    split
    · simp_all
    · simp_all
    · simp_all
    · rw [hsc]; exact hnext

/-- Under the hypotheses of stable verdicts, a group whose first rule verifies
false has that rule dispatched once by every iteration of the inner loop of
`StartByGroups`: `n` iterations make `n` dispatches. -/
theorem groupLoop_dispatches (X : Externals) (s : Scanner) (target : Str) (S : PocRule → Prop)
    (v : PocRule → Bool)
    (hstable : ∀ r, S r → ∀ w, (ruleStep X s target r w).ret = .done (v r) none ∧
      S (ruleStep X s target r w).rule ∧ v (ruleStep X s target r w).rule = v r) :
    ∀ (n : Nat) (rule : PocRule) (rest : List PocRule) (w : World), S rule → v rule = false →
      (groupLoop X target n s false (rule :: rest) w).world.log.length = w.log.length + n := by
  intro n
  induction n with
  | zero => intro rule rest w _ _; rfl
  | succ n ih =>
    intro rule rest w hS hv
    obtain ⟨hret, hS1, hv1⟩ := hstable rule hS w
    rw [hv] at hret hv1
    have hstop : (ruleStep X s target rule w).ret ≠ .done true none := by rw [hret]; simp
    have hstart : Start X s target (rule :: rest) w =
        ⟨(ruleStep X s target rule w).ret, (ruleStep X s target rule w).scanner,
         (ruleStep X s target rule w).rule :: rest, (ruleStep X s target rule w).world⟩ :=
      startLoop_cons_stop X target s false rule rest w hstop
    have hlog : (ruleStep X s target rule w).world.log.length = w.log.length + 1 := by
      rw [ruleStep_log]
      obtain ⟨d, hd⟩ := Option.isSome_iff_exists.1
        (ruleStep_verdict_dispatched X s target rule w false hret)
      simp [hd]
    rw [groupLoop, hstart]
    simp only [hret, ruleStep_scanner]
    rw [ih _ rest _ hS1 hv1, hlog]
    omega

theorem groupsLoop_stable (X : Externals) (s : Scanner) (target : Str) (S : PocRule → Prop)
    (v : PocRule → Bool)
    (hstable : ∀ r, S r → ∀ w, (ruleStep X s target r w).ret = .done (v r) none ∧
      S (ruleStep X s target r w).rule ∧ v (ruleStep X s target r w).rule = v r) :
    ∀ (groups : List (Str × List PocRule)) (w : World),
      (∀ g ∈ groups, g.2 ≠ []) → (∀ g ∈ groups, ∀ r ∈ g.2, S r) →
      (groupsLoop X target s false groups w).ret =
        .done (groups.any fun g => g.2.all v) none := by
  intro groups
  induction groups with
  | nil => intro w _ _; rfl
  | cons g rest ih =>
    intro w hne hS
    obtain ⟨name, rules⟩ := g
    have hne0 : rules ≠ [] := hne (name, rules) (List.mem_cons_self _ _)
    have hS0 : ∀ r ∈ rules, S r := hS (name, rules) (List.mem_cons_self _ _)
    obtain ⟨m, hm⟩ : ∃ m, rules.length = m + 1 :=
      Nat.exists_eq_succ_of_ne_zero (fun h => hne0 (List.length_eq_zero.1 h))
    rw [groupsLoop]
    dsimp only
    cases hall : rules.all v with
    | true =>
      have hp := groupLoop_passes X s target S v hstable rules m false w hS0 hne0 hall
      rw [hm, hp]
      simp [hall]
    | false =>
      obtain ⟨f1, f2, f3⟩ := groupLoop_fails X s target S v hstable rules.length rules w hS0 hne0 hall
      rw [f1]
      simp only [f2, f3, List.any_cons, hall, Bool.false_or]
      exact ih _ (fun g hg => hne g (List.mem_cons_of_mem _ hg))
        (fun g hg => hS g (List.mem_cons_of_mem _ hg))

/-! ## Facts about `SortMapKeys` and the order of a map -/

theorem lookupKey_perm {β : Type} (k : Str) {l₁ l₂ : List (Str × β)} (h : l₁.Perm l₂)
    (nd : (l₁.map Prod.fst).Nodup) : lookupKey k l₁ = lookupKey k l₂ := by
  induction h with
  | nil => rfl
  | cons x _ ih =>
    obtain ⟨a, b⟩ := x
    rw [List.map_cons, List.nodup_cons] at nd
    simp only [lookupKey, ih nd.2]
  | swap x y l =>
    obtain ⟨a, b⟩ := x
    obtain ⟨c, d⟩ := y
    simp only [List.map_cons, List.nodup_cons, List.mem_cons, not_or] at nd
    simp only [lookupKey]
    by_cases hc : c = k
    · by_cases ha : a = k
      · exact absurd (hc.trans ha.symm) nd.1.1
      · simp [hc, ha]
    · simp [hc]
  | trans h1 _ ih1 ih2 => exact (ih1 nd).trans (ih2 ((h1.map _).nodup_iff.1 nd))

theorem decodeKeys_congr (X : Externals) (G : Globals) (env : CelEnv)
    (p1 p2 : List (Str × Str)) (h : ∀ k, lookupKey k p1 = lookupKey k p2) :
    ∀ (keys : List Str) (run : SetRun),
      decodeKeys X G env p1 keys run = decodeKeys X G env p2 keys run := by
  intro keys
  induction keys with
  | nil => intro run; rfl
  | cons key keys ih =>
    intro run
    rw [decodeKeys, decodeKeys, h key]
    simp only [ih]

theorem SortMapKeys_perm {p1 p2 : List (Str × Str)} (h : p1.Perm p2) :
    SortMapKeys p1 = SortMapKeys p2 := by
  unfold SortMapKeys
  apply List.eq_of_perm_of_sorted (r := (· ≤ ·))
  · exact (List.perm_insertionSort _ _).trans ((h.map _).trans (List.perm_insertionSort _ _).symm)
  · exact List.sorted_insertionSort _ _
  · exact List.sorted_insertionSort _ _

theorem SortMapKeys_sorted (m : List (Str × Str)) (nd : (m.map Prod.fst).Nodup) :
    (SortMapKeys m).Sorted (· < ·) := by
  unfold SortMapKeys
  apply List.Sorted.lt_of_le (List.sorted_insertionSort _ _)
  exact (List.perm_insertionSort _ _).nodup_iff.2 nd

/-! ## Facts about the built-ins `randomInt` and `wait` -/

/-- Where `hi - lo` fits in an `int64` and the generator answers within its
bound, `randomInt(lo, hi)` returns an integer of `[lo, hi)`. -/
theorem randomIntFunc_without_overflow (X : Externals) (w : World) (lo hi : Int)
    (hlo : -(2 ^ 63) ≤ lo) (hhi : hi < 2 ^ 63) (hlt : lo < hi) (hfit : hi - lo < 2 ^ 63)
    (hrng : 0 ≤ X.randIntn w (hi - lo) ∧ X.randIntn w (hi - lo) < hi - lo) :
    randomIntFunc X w (.int lo) (.int hi) = .value (.int (X.randIntn w (hi - lo) + lo)) ∧
    lo ≤ X.randIntn w (hi - lo) + lo ∧ X.randIntn w (hi - lo) + lo < hi := by
  have h1 : wrapInt64 (hi - lo) = hi - lo := wrapInt64_of_range _ (by omega) hfit
  have h2 : wrapInt64 (X.randIntn w (hi - lo) + lo) = X.randIntn w (hi - lo) + lo :=
    wrapInt64_of_range _ (by omega) (by omega)
  refine ⟨?_, by omega, by omega⟩
  simp only [randomIntFunc, h1, h2]
  rw [if_neg (by omega)]

theorem VerifyReverse_without_token (X : Externals) (G : Globals) (r : Reverse) (timeout : Int)
    (w : World) (htoken : G.reverseToken = []) : VerifyReverse X G r timeout w = (false, w) := by
  unfold VerifyReverse
  rw [if_pos htoken]

/-- The function `getReverseResp` returns true exactly if the collaborator
answers the GET of `verifyUrl` with a body that does not contain `"data": []`;
it makes one call. -/
theorem getReverseResp_true_iff (X : Externals) (verifyUrl : Str) (w : World) :
    ((getReverseResp X verifyUrl w).1 = true ↔
      ∃ response, X.httpDo w
          { Url := ⟨verifyUrl⟩, Method := "GET".toList, Headers := [], Body := [] } false =
            .ok response ∧
        Contains response.Body emptyData = false) ∧
    (getReverseResp X verifyUrl w).2 = w.tick := by
  unfold getReverseResp
  dsimp only
  cases h : X.httpDo w
      { Url := ⟨verifyUrl⟩, Method := "GET".toList, Headers := [], Body := [] } false with
  | error e => simp
  | ok response => simp

/-! ## Facts about `decode.Search` -/

theorem bindNames_of_length (result : List Str) :
    ∀ (names : List Str) (i : Nat) (set : Bindings), 0 < i →
      i + names.length = result.length →
      bindNames result i names set =
        .value ((names.zip (result.drop i)).foldl (fun set p => setKey p.1 (.str p.2) set) set) := by
  intro names
  induction names with
  | nil => intro i set _ _; rfl
  | cons name names ih =>
    intro i set hi hlen
    rw [List.length_cons] at hlen
    have hlt : i < result.length := by omega
    rw [bindNames, if_pos ⟨hi, by omega⟩, List.get?_eq_get hlt]
    simp only
    rw [ih (i + 1) _ (by omega) (by omega), List.drop_eq_getElem_cons hlt]
    rfl

theorem Search_outcome (X : Externals) (re body : Str) (set : Bindings) (r : Regexp)
    (hc : X.regexpCompile re = .ok r) (hwf : r.wellFormed) :
    Search X re body set =
      if r.find body ≠ [] ∧ 1 < r.names.length then
        .value (none, bindGroups r.names (r.find body) set)
      else .value (some "not matched".toList, set) := by
  unfold Search
  rw [hc]
  simp only
  rcases hwf.2 body with hnil | hlen
  · rw [if_neg (by rw [hnil]; simp), if_neg (by simp [hnil])]
  · by_cases hn : 1 < r.names.length
    · have hres : r.find body ≠ [] := by
        intro h; rw [h] at hlen; simp at hlen; omega
      rw [if_pos ⟨by omega, hn⟩, if_pos ⟨hres, hn⟩]
      obtain ⟨n0, rest, hnames⟩ : ∃ n0 rest, r.names = n0 :: rest := by
        cases hr : r.names with
        | nil => rw [hr] at hn; simp at hn
        | cons a as => exact ⟨a, as, rfl⟩
      rw [hnames] at hlen ⊢
      rw [bindNames, if_neg (by omega),
        bindNames_of_length _ rest 1 set (by omega) (by rw [hlen, List.length_cons]; omega)]
      simp [bindGroups]
    · rw [if_neg (fun h => hn h.2), if_neg (fun h => hn h.2)]

/-! ## Facts about the verdict of `scan` and about `PocEvent.DecodeSet` -/

/-- Once the request of a rule with an empty search has been dispatched and the
response set up, `scan` returns the boolean the expression evaluates to, or
`(false, err)` with `err` wrapping `scan failed` when the evaluation fails, and
panics on a value that is no boolean. -/
theorem scan_expression_outcome (X : Externals) (s : Scanner) (target : Str) (rule : PocRule)
    (w : World) (request : Request) (response : RawResponse) (u : UrlType)
    (hsearch : rule.Search = [])
    (hb : X.buildRequest rule.Method (X.joinPath target rule.Path) rule.Body rule.Headers =
      .ok request)
    (hd : X.httpDo { w with requestsAcquired := w.requestsAcquired + 1 } request
      rule.FollowRedirects = .ok response)
    (hu : X.urlParse request.Url.href = .ok u) :
    (scan X s target rule w).ret =
      match Evaluate X
          { clock := w.clock + 1, log := w.log ++ [(request, rule.FollowRedirects)],
            requestsAcquired := w.requestsAcquired + 1, requestsReleased := w.requestsReleased,
            responsesAcquired := w.responsesAcquired + 1,
            responsesReleased := w.responsesReleased }
          s.env rule.Expression
          (setKey "response".toList (.response
            { Url := u, Headers := parseHeaders X (splitFrom ['\r', '\n'] 0 [] response.Header) [],
              Status := wrapInt32 response.StatusCode, ContentType := response.ContentType,
              Body := response.Body, BodyString := response.Body })
            (setKey "request".toList (.request request) s.set)) with
      | .error err => .done false (some ("scan failed: ".toList ++ err))
      | .ok (.bool b) => .done b none
      | .ok _ => .panicked := by
  simp only [scan, SetupRequest, SetupResponse, hb, hd, hu, hsearch, ne_eq, not_true_eq_false,
    if_false]
  split <;> rename_i heq
  · rw [heq]
  · rw [heq]
    split <;> simp_all

theorem mem_setKey {β : Type} (k : Str) (v : β) :
    ∀ (l : List (Str × β)) (e : Str × β), e ∈ setKey k v l → e ∈ l ∨ e = (k, v) := by
  intro l
  induction l with
  | nil => intro e he; right; simpa [setKey] using he
  | cons a as ih =>
    intro e he
    obtain ⟨k1, v1⟩ := a
    rw [setKey] at he
    split at he
    · rcases List.mem_cons.1 he with h | h
      · right; exact h
      · left; exact List.mem_cons_of_mem _ h
    · rcases List.mem_cons.1 he with h | h
      · left; rw [h]; exact List.mem_cons_self _ _
      · rcases ih e h with h1 | h1
        · left; exact List.mem_cons_of_mem _ h1
        · right; exact h1

/-- An entry with an empty value is passed over. -/
theorem decodeKeys_skips_empty (X : Externals) (G : Globals) (env : CelEnv)
    (pset : List (Str × Str)) (key : Str) (keys : List Str) (run : SetRun)
    (hv : (lookupKey key pset).getD [] = []) :
    decodeKeys X G env pset (key :: keys) run = decodeKeys X G env pset keys run := by
  rw [decodeKeys, if_pos hv]

/-- An entry whose expression fails binds nothing, and the entries after it are
resolved from the same bindings. -/
theorem decodeKeys_skips_failed (X : Externals) (G : Globals) (env : CelEnv)
    (pset : List (Str × Str)) (key : Str) (keys : List Str) (run : SetRun) (e : Str)
    (hexpr : isExpression pset key = true)
    (hfail : Evaluate X run.world env ((lookupKey key pset).getD []) run.set = .error e) :
    decodeKeys X G env pset (key :: keys) run =
      decodeKeys X G env pset keys
        { run with world := run.world.tick, calls := run.calls ++ [(key, run.set)] } := by
  unfold isExpression at hexpr
  rw [Bool.and_eq_true] at hexpr
  rw [decodeKeys, if_neg (bne_iff_ne.1 hexpr.1), if_neg (bne_iff_ne.1 hexpr.2), hfail]

/-- Where `NewReverse` cannot panic, because the reverse domain is empty or
because `url.Parse` accepts every probe URL, `PocEvent.DecodeSet` does not panic
either, and every key it binds has a non-empty value in `set`. -/
theorem decodeKeys_without_panic (X : Externals) (G : Globals) (env : CelEnv)
    (pset : List (Str × Str))
    (hparse : G.reverseDomain = [] ∨ ∀ u, ∃ v, X.urlParse u = .ok v) :
    ∀ (keys : List Str) (run : SetRun), run.panicked = false →
      (decodeKeys X G env pset keys run).panicked = false ∧
      ∀ e ∈ (decodeKeys X G env pset keys run).set,
        e ∈ run.set ∨ (e.1 ∈ keys ∧ (lookupKey e.1 pset).getD [] ≠ []) := by
  have hnr : ∀ w, ∃ rv w1, NewReverse X G w = (.value rv, w1) := by
    intro w
    unfold NewReverse
    rcases hparse with h | h
    · rw [if_pos h]; exact ⟨_, _, rfl⟩
    · split
      · exact ⟨_, _, rfl⟩
      · obtain ⟨v, hv⟩ := h ("http://".toList ++ X.randLetterNumbers w 8 ++ ['.'] ++ G.reverseDomain)
        simp only [hv]
        exact ⟨_, _, rfl⟩
  intro keys
  induction keys with
  | nil => intro run hp; exact ⟨hp, fun e he => Or.inl he⟩
  | cons key keys ih =>
    intro run hp
    have lift : ∀ run1 : SetRun, run1.panicked = false →
        (∀ e ∈ run1.set, e ∈ run.set ∨
          (e.1 = key ∧ (lookupKey key pset).getD [] ≠ [])) →
        (decodeKeys X G env pset keys run1).panicked = false ∧
        ∀ e ∈ (decodeKeys X G env pset keys run1).set,
          e ∈ run.set ∨ (e.1 ∈ key :: keys ∧ (lookupKey e.1 pset).getD [] ≠ []) := by
      intro run1 hp1 hsub
      obtain ⟨h1, h2⟩ := ih run1 hp1
      refine ⟨h1, fun e he => ?_⟩
      rcases h2 e he with h | ⟨h, hv⟩
      · rcases hsub e h with h3 | ⟨h3, hv⟩
        · exact Or.inl h3
        · exact Or.inr ⟨by rw [h3]; exact List.mem_cons_self _ _, by rw [h3]; exact hv⟩
      · exact Or.inr ⟨List.mem_cons_of_mem _ h, hv⟩
    rw [decodeKeys]
    by_cases hv : (lookupKey key pset).getD [] = []
    · rw [if_pos hv]
      exact lift run hp (fun e he => Or.inl he)
    · rw [if_neg hv]
      have hnew : ∀ (v : Val), ∀ e ∈ setKey key v run.set,
          e ∈ run.set ∨ (e.1 = key ∧ (lookupKey key pset).getD [] ≠ []) := by
        intro v e he
        rcases mem_setKey key v run.set e he with h | h
        · exact Or.inl h
        · exact Or.inr ⟨by rw [h], hv⟩
      split
      · obtain ⟨rv, w1, hrv⟩ := hnr run.world
        rw [hrv]
        exact lift _ hp (hnew _)
      · split
        · exact lift _ hp (fun e he => Or.inl he)
        · exact lift _ hp (hnew _)

/-! ## Facts about templates -/

theorem hole_eq (k : Str) : hole k = '{' :: '{' :: (k ++ ['}', '}']) := rfl

theorem isPrefixOf_cons_cons (a b : Char) (as bs : Str) :
    (a :: as).isPrefixOf (b :: bs) = (a == b && as.isPrefixOf bs) := by
  simp [List.isPrefixOf]

theorem replaceFrom_plainText (k v : Str) :
    ∀ (t rest : Str), plainText t = true →
      replaceFrom (hole k) v 0 (t ++ rest) = t ++ replaceFrom (hole k) v 0 rest := by
  intro t
  induction t with
  | nil => intro rest _; rfl
  | cons c t ih =>
    intro rest h
    cases t with
    | nil =>
      have hc : ('{' == c) = false := by
        simp only [plainText, bne_iff_ne, ne_eq] at h
        simpa using fun e => h e.symm
      simp only [List.singleton_append, List.nil_append]
      rw [replaceFrom, hole_eq, isPrefixOf_cons_cons, hc]
      simp
    | cons d t1 =>
      simp only [plainText, Bool.and_eq_true, Bool.not_eq_true'] at h
      have hcd : (('{' == c) && ('{' == d)) = false := by
        have := h.1
        simp only [Bool.and_eq_false_iff, beq_eq_false_iff_ne, ne_eq] at this ⊢
        rcases this with h1 | h1
        · left; exact fun e => h1 e.symm
        · right; exact fun e => h1 e.symm
      have ih1 := ih rest h.2
      simp only [List.cons_append] at ih1 ⊢
      rw [replaceFrom, hole_eq, isPrefixOf_cons_cons, isPrefixOf_cons_cons, ← Bool.and_assoc, hcd]
      simp only [Bool.false_and, Bool.false_eq_true, if_false]
      rw [← hole_eq, ih1]

theorem replaceFrom_skip (old new : Str) :
    ∀ (xs rest : Str), replaceFrom old new xs.length (xs ++ rest) = replaceFrom old new 0 rest := by
  intro xs
  induction xs with
  | nil => intro rest; rfl
  | cons x xs ih =>
    intro rest
    rw [List.length_cons, List.cons_append, replaceFrom, ih]

theorem plainText_of_no_open : ∀ t : Str, (∀ c ∈ t, c ≠ '{') → plainText t = true := by
  intro t
  induction t with
  | nil => intro _; rfl
  | cons c t ih =>
    intro h
    have hc : c ≠ '{' := h c (List.mem_cons_self _ _)
    cases t with
    | nil => simpa [plainText] using hc
    | cons d t1 =>
      simp only [plainText, Bool.and_eq_true, Bool.not_eq_true']
      exact ⟨by simp [hc], ih (fun x hx => h x (List.mem_cons_of_mem _ hx))⟩

theorem braceFree_cons (a : Char) (k : Str) :
    braceFree (a :: k) = true ↔ (a ≠ '{' ∧ a ≠ '}') ∧ braceFree k = true := by
  simp [braceFree]

theorem plainText_slot_tail (k : Str) (hk : braceFree k = true) :
    plainText ('{' :: (k ++ ['}', '}'])) = true := by
  have hrest : ∀ c ∈ k ++ ['}', '}'], c ≠ '{' := by
    intro c hc
    rcases List.mem_append.1 hc with h | h
    · simp only [braceFree, List.all_eq_true, Bool.and_eq_true, bne_iff_ne] at hk
      exact (hk c h).1
    · simp only [List.mem_cons, List.mem_singleton, List.not_mem_nil, or_false, or_self] at h
      rw [h]; decide
  have hp := plainText_of_no_open _ hrest
  cases hkk : k ++ ['}', '}'] with
  | nil => simp at hkk
  | cons d rest =>
    rw [hkk] at hp hrest
    simp only [plainText, Bool.and_eq_true, Bool.not_eq_true']
    exact ⟨by simp [hrest d (List.mem_cons_self _ _)], hp⟩

theorem slot_names_differ (rest : Str) :
    ∀ (k k1 : Str), braceFree k = true → braceFree k1 = true → k ≠ k1 →
      (k ++ ['}', '}']).isPrefixOf (k1 ++ '}' :: '}' :: rest) = false := by
  intro k
  induction k with
  | nil =>
    intro k1 _ h1 hne
    cases k1 with
    | nil => exact absurd rfl hne
    | cons b k2 =>
      have hb := ((braceFree_cons b k2).1 h1).1.2
      have hbeq : ('}' == b) = false := by simpa using fun e => hb e.symm
      rw [List.nil_append, List.cons_append, isPrefixOf_cons_cons, hbeq, Bool.false_and]
  | cons a k ih =>
    intro k1 h h1 hne
    have ha := ((braceFree_cons a k).1 h)
    cases k1 with
    | nil =>
      have hbeq : (a == '}') = false := by simpa using ha.1.2
      rw [List.nil_append, List.cons_append, isPrefixOf_cons_cons, hbeq, Bool.false_and]
    | cons b k2 =>
      have hb := ((braceFree_cons b k2).1 h1)
      rw [List.cons_append, List.cons_append, isPrefixOf_cons_cons]
      by_cases hab : a = b
      · subst hab
        have hne1 : k ≠ k2 := fun e => hne (by rw [e])
        rw [ih k2 ha.2 hb.2 hne1, Bool.and_false]
      · have hbeq : (a == b) = false := by simpa using hab
        rw [hbeq, Bool.false_and]

theorem replaceFrom_other_slot (k v k1 rest : Str) (hk : braceFree k = true)
    (hk1 : braceFree k1 = true) (hne : k1 ≠ k) :
    replaceFrom (hole k) v 0 (hole k1 ++ rest) = hole k1 ++ replaceFrom (hole k) v 0 rest := by
  have hmis := slot_names_differ rest k k1 hk hk1 (fun e => hne e.symm)
  have hpass := replaceFrom_plainText k v ('{' :: (k1 ++ ['}', '}'])) rest
    (plainText_slot_tail k1 hk1)
  simp only [hole_eq, List.cons_append, List.append_assoc, List.nil_append] at hpass ⊢
  rw [replaceFrom, isPrefixOf_cons_cons, isPrefixOf_cons_cons]
  simp only [beq_self_eq_true, Bool.true_and, hmis, Bool.false_eq_true, if_false]
  rw [hpass]

theorem replaceFrom_same_slot (k v rest : Str) :
    replaceFrom (hole k) v 0 (hole k ++ rest) = v ++ replaceFrom (hole k) v 0 rest := by
  have hpre : (hole k).isPrefixOf (hole k ++ rest) = true :=
    List.isPrefixOf_iff_prefix.2 (List.prefix_append _ _)
  have hskip := replaceFrom_skip (hole k) v ('{' :: (k ++ ['}', '}'])) rest
  have hlen : (hole k).length - 1 = ('{' :: (k ++ ['}', '}'])).length := by simp [hole_eq]
  cases hh : hole k ++ rest with
  | nil => simp [hole_eq] at hh
  | cons c cs =>
    have hcs : cs = ('{' :: (k ++ ['}', '}'])) ++ rest := by
      simp only [hole_eq, List.cons_append, List.cons.injEq] at hh
      exact hh.2.symm
    rw [replaceFrom, ← hh, if_pos hpre, hlen, hcs, hskip]

theorem replaceFrom_renderPieces (k v : Str) (hk : braceFree k = true) :
    ∀ ps : List Piece, (∀ p ∈ ps, p.wellFormed = true) →
      replaceFrom (hole k) v 0 (renderPieces ps) = renderPieces (ps.map (fill k v)) := by
  intro ps
  induction ps with
  | nil => intro _; rfl
  | cons p ps ih =>
    intro h
    have ihp := ih (fun q hq => h q (List.mem_cons_of_mem _ hq))
    have hp := h p (List.mem_cons_self _ _)
    cases p with
    | text t =>
      simp only [renderPieces, List.map_cons, fill, Piece.render]
      rw [replaceFrom_plainText k v t _ hp, ihp]
    | slot k1 =>
      simp only [renderPieces, List.map_cons, fill, Piece.render]
      by_cases hkk : k1 = k
      · subst hkk
        rw [replaceFrom_same_slot, ihp, if_pos rfl]
      · rw [replaceFrom_other_slot k v k1 _ hk hp hkk, ihp, if_neg hkk]

theorem ReplaceAll_renderPieces (k v : Str) (hk : braceFree k = true)
    (hv : plainText v = true) (ps : List Piece) (hps : ∀ p ∈ ps, p.wellFormed = true) :
    ReplaceAll (renderPieces ps) (hole k) v = renderPieces (ps.map (fill k v)) := by
  have hne : hole k ≠ v := by
    intro h
    rw [← h, hole_eq] at hv
    cases hkk : k ++ ['}', '}'] <;> simp [plainText, hkk] at hv
  unfold ReplaceAll
  rw [if_neg hne, if_neg (by simp [hole_eq])]
  exact replaceFrom_renderPieces k v hk ps hps

theorem fill_wellFormed (k v : Str) (hv : plainText v = true) (ps : List Piece)
    (hps : ∀ p ∈ ps, p.wellFormed = true) : ∀ p ∈ ps.map (fill k v), p.wellFormed = true := by
  intro p hp
  obtain ⟨q, hq, rfl⟩ := List.mem_map.1 hp
  have hqw := hps q hq
  cases q with
  | text t => exact hqw
  | slot k1 =>
    simp only [fill]
    split
    · exact hv
    · exact hqw

theorem fill_comm (k1 v1 k2 v2 : Str) (hne : k1 ≠ k2) (ps : List Piece) :
    (ps.map (fill k1 v1)).map (fill k2 v2) = (ps.map (fill k2 v2)).map (fill k1 v1) := by
  simp only [List.map_map]
  refine List.map_congr_left fun p _ => ?_
  cases p with
  | text t => rfl
  | slot k =>
    simp only [Function.comp, fill]
    by_cases h1 : k = k1
    · have h2 : k ≠ k2 := fun e => hne (h1.symm.trans e)
      simp [h1, hne, fill]
    · by_cases h2 : k = k2
      · have h3 : k2 ≠ k1 := fun e => h1 (h2.trans e)
        simp [h2, h3, fill]
      · simp [h1, h2, fill]

theorem TrimSpace_of_edged (s : Str) (h : edged s = true) : TrimSpace s = s := by
  unfold edged at h
  rw [Bool.and_eq_true] at h
  cases s with
  | nil => rfl
  | cons c cs =>
    have hc : isSpace c = false := by simpa using h.1
    have h1 : (c :: cs).dropWhile isSpace = c :: cs := by
      rw [List.dropWhile_cons_of_neg (by simp [hc])]
    have hlast : ((c :: cs).reverse).head?.all (fun c => !isSpace c) = true := by
      rw [List.head?_reverse]; exact h.2
    unfold TrimSpace
    rw [h1]
    cases hr : (c :: cs).reverse with
    | nil => simp at hr
    | cons d ds =>
      rw [hr] at hlast
      have hd : isSpace d = false := by simpa using hlast
      rw [List.dropWhile_cons_of_neg (by simp [hd]), ← hr, List.reverse_reverse]

theorem head_dropWhile (p : Char → Bool) :
    ∀ l : Str, ((l.dropWhile p).head?.all fun c => !p c) = true := by
  intro l
  induction l with
  | nil => rfl
  | cons x xs ih =>
    by_cases h : p x = true
    · rw [List.dropWhile_cons_of_pos h]; exact ih
    · rw [List.dropWhile_cons_of_neg h]
      simpa using h

theorem getLast_dropWhile (p : Char → Bool) :
    ∀ l : Str, (l.dropWhile p).getLast? = none ∨ (l.dropWhile p).getLast? = l.getLast? := by
  intro l
  induction l with
  | nil => exact Or.inl rfl
  | cons x xs ih =>
    by_cases h : p x = true
    · rw [List.dropWhile_cons_of_pos h]
      cases xs with
      | nil => exact Or.inl rfl
      | cons y ys =>
        rcases ih with ih | ih
        · exact Or.inl ih
        · exact Or.inr (by rw [ih, List.getLast?_cons_cons])
    · rw [List.dropWhile_cons_of_neg h]
      exact Or.inr rfl

theorem edged_TrimSpace (s : Str) : edged (TrimSpace s) = true := by
  unfold edged TrimSpace
  rw [Bool.and_eq_true, List.head?_reverse, List.getLast?_reverse]
  refine ⟨?_, head_dropWhile isSpace _⟩
  rcases getLast_dropWhile isSpace (s.dropWhile isSpace).reverse with h | h
  · rw [h]; rfl
  · rw [h, List.getLast?_reverse]
    exact head_dropWhile isSpace s

theorem TrimSpace_TrimSpace (s : Str) : TrimSpace (TrimSpace s) = TrimSpace s :=
  TrimSpace_of_edged _ (edged_TrimSpace s)

theorem renderPieces_fill_eq_nil (k v : Str) (hv : v ≠ []) :
    ∀ ps : List Piece, renderPieces (ps.map (fill k v)) = [] ↔ renderPieces ps = [] := by
  intro ps
  induction ps with
  | nil => exact Iff.rfl
  | cons p ps ih =>
    cases p with
    | text t =>
      simp only [List.map_cons, fill, renderPieces, Piece.render, List.append_eq_nil, ih]
    | slot k1 =>
      simp only [List.map_cons, fill, renderPieces, List.append_eq_nil]
      by_cases h : k1 = k
      · simp [h, Piece.render, hv, hole_eq]
      · simp [h, Piece.render, hole_eq]

theorem hole_getLast (k : Str) : (hole k).getLast? = some '}' := by
  have : hole k = ('{' :: '{' :: (k ++ ['}'])) ++ ['}'] := by simp [hole_eq]
  rw [this, List.getLast?_concat]

theorem head_fill (k v : Str) (hv : v ≠ []) (hhead : (v.head?.all fun c => !isSpace c) = true) :
    ∀ ps : List Piece, ((renderPieces ps).head?.all fun c => !isSpace c) = true →
      ((renderPieces (ps.map (fill k v))).head?.all fun c => !isSpace c) = true := by
  intro ps
  induction ps with
  | nil => intro h; exact h
  | cons p ps ih =>
    intro h
    cases p with
    | text t =>
      cases t with
      | nil => exact ih h
      | cons c t1 => exact h
    | slot k1 =>
      simp only [List.map_cons, fill, renderPieces]
      by_cases hk : k1 = k
      · rw [if_pos hk]
        simp only [Piece.render]
        rw [List.head?_append_of_ne_nil _ hv]
        exact hhead
      · rw [if_neg hk]
        simp only [Piece.render, hole_eq, List.cons_append, List.head?_cons, Option.all_some]
        decide

theorem last_fill (k v : Str) (hv : v ≠ []) (hlast : (v.getLast?.all fun c => !isSpace c) = true) :
    ∀ ps : List Piece, ((renderPieces ps).getLast?.all fun c => !isSpace c) = true →
      ((renderPieces (ps.map (fill k v))).getLast?.all fun c => !isSpace c) = true := by
  intro ps
  induction ps with
  | nil => intro h; exact h
  | cons p ps ih =>
    intro h
    simp only [List.map_cons, renderPieces] at h ⊢
    by_cases hrest : renderPieces ps = []
    · have hrest1 := (renderPieces_fill_eq_nil k v hv ps).2 hrest
      rw [hrest, List.append_nil] at h
      rw [hrest1, List.append_nil]
      cases p with
      | text t => exact h
      | slot k1 =>
        simp only [fill]
        by_cases hk : k1 = k
        · rw [if_pos hk]; exact hlast
        · rw [if_neg hk]
          simp only [Piece.render, hole_getLast, Option.all_some]
          decide
    · have hrest1 : renderPieces (ps.map (fill k v)) ≠ [] :=
        fun e => hrest ((renderPieces_fill_eq_nil k v hv ps).1 e)
      rw [List.getLast?_append_of_ne_nil _ hrest] at h
      rw [List.getLast?_append_of_ne_nil _ hrest1]
      exact ih h

theorem edged_fill (k v : Str) (hv : v ≠ []) (hedged : edged v = true) (ps : List Piece)
    (h : edged (renderPieces ps) = true) : edged (renderPieces (ps.map (fill k v))) = true := by
  unfold edged at hedged h ⊢
  rw [Bool.and_eq_true] at hedged h ⊢
  exact ⟨head_fill k v hv hedged.1 ps h.1, last_fill k v hv hedged.2 ps h.2⟩

theorem template_step (k v s : Str) (hk : braceFree k = true) (hv : plainText v = true)
    (hs : isTemplate s) :
    ∃ ps : List Piece, (∀ p ∈ ps, p.wellFormed = true) ∧ renderPieces ps = s ∧
      ReplaceAll s (hole k) v = renderPieces (ps.map (fill k v)) ∧
      isTemplate (ReplaceAll s (hole k) v) := by
  obtain ⟨ps, hps, rfl⟩ := hs
  have h := ReplaceAll_renderPieces k v hk hv ps hps
  exact ⟨ps, hps, rfl, h, ps.map (fill k v), fill_wellFormed k v hv ps hps, h.symm⟩

theorem template_comm (k1 v1 k2 v2 s : Str) (hk1 : braceFree k1 = true)
    (hv1 : plainText v1 = true) (hk2 : braceFree k2 = true) (hv2 : plainText v2 = true)
    (hne : k1 ≠ k2) (hs : isTemplate s) :
    ReplaceAll (ReplaceAll s (hole k1) v1) (hole k2) v2 =
      ReplaceAll (ReplaceAll s (hole k2) v2) (hole k1) v1 := by
  obtain ⟨ps, hps, rfl⟩ := hs
  rw [ReplaceAll_renderPieces k1 v1 hk1 hv1 ps hps, ReplaceAll_renderPieces k2 v2 hk2 hv2 ps hps,
    ReplaceAll_renderPieces k2 v2 hk2 hv2 _ (fill_wellFormed k1 v1 hv1 ps hps),
    ReplaceAll_renderPieces k1 v1 hk1 hv1 _ (fill_wellFormed k2 v2 hv2 ps hps),
    fill_comm k1 v1 k2 v2 hne]

theorem trimmed_step (k v s : Str) (hk : braceFree k = true) (hv0 : v ≠ [])
    (hv : plainText v = true) (hve : edged v = true) (hs : isTemplate s)
    (hse : edged s = true) :
    isTemplate (ReplaceAll (TrimSpace s) (hole k) v) ∧
    edged (ReplaceAll (TrimSpace s) (hole k) v) = true := by
  rw [TrimSpace_of_edged s hse]
  obtain ⟨ps, hps, rfl⟩ := hs
  rw [ReplaceAll_renderPieces k v hk hv ps hps]
  exact ⟨⟨ps.map (fill k v), fill_wellFormed k v hv ps hps, rfl⟩, edged_fill k v hv0 hve ps hse⟩

theorem trimmed_comm (k1 v1 k2 v2 s : Str) (hk1 : braceFree k1 = true) (h10 : v1 ≠ [])
    (hv1 : plainText v1 = true) (h1e : edged v1 = true) (hk2 : braceFree k2 = true)
    (h20 : v2 ≠ []) (hv2 : plainText v2 = true) (h2e : edged v2 = true) (hne : k1 ≠ k2)
    (hs : isTemplate s) (hse : edged s = true) :
    ReplaceAll (TrimSpace (ReplaceAll (TrimSpace s) (hole k1) v1)) (hole k2) v2 =
      ReplaceAll (TrimSpace (ReplaceAll (TrimSpace s) (hole k2) v2)) (hole k1) v1 := by
  have e1 := (trimmed_step k1 v1 s hk1 h10 hv1 h1e hs hse).2
  have e2 := (trimmed_step k2 v2 s hk2 h20 hv2 h2e hs hse).2
  rw [TrimSpace_of_edged _ e1, TrimSpace_of_edged _ e2, TrimSpace_of_edged s hse]
  exact template_comm k1 v1 k2 v2 s hk1 hv1 hk2 hv2 hne hs

theorem decodeEntry_skipped (sprint : Val → Str) (r : PocRule) (e : Str × Val)
    (h : e.2.isStrMap = true) : decodeEntry sprint r e = r := by
  obtain ⟨k, v⟩ := e
  cases v <;> simp [Val.isStrMap] at h
  rfl

theorem decodeEntry_substituted (sprint : Val → Str) (r : PocRule) (e : Str × Val)
    (h : e.2.isStrMap = false) :
    decodeEntry sprint r e =
      { r with
        Headers := r.Headers.map (fun h => (h.1, ReplaceAll h.2 (hole e.1) (sprint e.2)))
        Path := ReplaceAll (TrimSpace r.Path) (hole e.1) (sprint e.2)
        Body := ReplaceAll (TrimSpace r.Body) (hole e.1) (sprint e.2) } := by
  obtain ⟨k, v⟩ := e
  cases v <;> first | rfl | simp [Val.isStrMap] at h

theorem settledEntry_cases (sprint : Val → Str) (e : Str × Val)
    (h : settledEntry sprint e = true) :
    e.2.isStrMap = true ∨ (e.2.isStrMap = false ∧ braceFree e.1 = true ∧ sprint e.2 ≠ [] ∧
      plainText (sprint e.2) = true ∧ edged (sprint e.2) = true) := by
  unfold settledEntry at h
  cases hm : e.2.isStrMap with
  | true => exact Or.inl rfl
  | false =>
    rw [hm] at h
    simp only [Bool.false_or, Bool.and_eq_true, bne_iff_ne, ne_eq] at h
    exact Or.inr ⟨rfl, h.1.1.1, h.1.1.2, h.1.2, h.2⟩

theorem decodeEntry_templated (sprint : Val → Str) (r : PocRule) (e : Str × Val)
    (he : settledEntry sprint e = true) (hr : templated r) :
    templated (decodeEntry sprint r e) := by
  rcases settledEntry_cases sprint e he with h | ⟨hm, hk, hv0, hv, hve⟩
  · rw [decodeEntry_skipped sprint r e h]; exact hr
  · rw [decodeEntry_substituted sprint r e hm]
    obtain ⟨hp, hpe, hb, hbe, hh⟩ := hr
    have p1 := trimmed_step e.1 (sprint e.2) r.Path hk hv0 hv hve hp hpe
    have b1 := trimmed_step e.1 (sprint e.2) r.Body hk hv0 hv hve hb hbe
    refine ⟨p1.1, p1.2, b1.1, b1.2, ?_⟩
    intro h hmem
    obtain ⟨h0, hh0, rfl⟩ := List.mem_map.1 hmem
    exact (template_step e.1 (sprint e.2) h0.2 hk hv (hh h0 hh0)).choose_spec.2.2.2

theorem decodeEntry_comm (sprint : Val → Str) (r : PocRule) (e1 e2 : Str × Val)
    (h1 : settledEntry sprint e1 = true) (h2 : settledEntry sprint e2 = true)
    (hne : e1.1 ≠ e2.1) (hr : templated r) :
    decodeEntry sprint (decodeEntry sprint r e1) e2 =
      decodeEntry sprint (decodeEntry sprint r e2) e1 := by
  rcases settledEntry_cases sprint e1 h1 with s1 | ⟨m1, k1, v10, v1, v1e⟩
  · rw [decodeEntry_skipped sprint r e1 s1, decodeEntry_skipped sprint _ e1 s1]
  · rcases settledEntry_cases sprint e2 h2 with s2 | ⟨m2, k2, v20, v2, v2e⟩
    · rw [decodeEntry_skipped sprint r e2 s2, decodeEntry_skipped sprint _ e2 s2]
    · obtain ⟨hp, hpe, hb, hbe, hh⟩ := hr
      rw [decodeEntry_substituted sprint r e1 m1, decodeEntry_substituted sprint r e2 m2,
        decodeEntry_substituted sprint _ e2 m2, decodeEntry_substituted sprint _ e1 m1]
      simp only [List.map_map]
      rw [trimmed_comm e1.1 (sprint e1.2) e2.1 (sprint e2.2) r.Path k1 v10 v1 v1e k2 v20 v2 v2e
          hne hp hpe,
        trimmed_comm e1.1 (sprint e1.2) e2.1 (sprint e2.2) r.Body k1 v10 v1 v1e k2 v20 v2 v2e
          hne hb hbe]
      have hhd : r.Headers.map ((fun h => (h.1, ReplaceAll h.2 (hole e2.1) (sprint e2.2))) ∘
            fun h => (h.1, ReplaceAll h.2 (hole e1.1) (sprint e1.2))) =
          r.Headers.map ((fun h => (h.1, ReplaceAll h.2 (hole e1.1) (sprint e1.2))) ∘
            fun h => (h.1, ReplaceAll h.2 (hole e2.1) (sprint e2.2))) := by
        refine List.map_congr_left fun h hmem => ?_
        simp only [Function.comp]
        rw [template_comm e1.1 (sprint e1.2) e2.1 (sprint e2.2) h.2 k1 v1 k2 v2 hne (hh h hmem)]
      rw [hhd]

theorem foldl_decodeEntry_skipped (sprint : Val → Str) :
    ∀ (set : Bindings) (r : PocRule), (∀ e ∈ set, e.2.isStrMap = true) →
      set.foldl (decodeEntry sprint) r = r := by
  intro set
  induction set with
  | nil => intro r _; rfl
  | cons e es ih =>
    intro r h
    rw [List.foldl_cons, decodeEntry_skipped sprint r e (h e (List.mem_cons_self _ _))]
    exact ih r (fun x hx => h x (List.mem_cons_of_mem _ hx))

/-- The first entry that is substituted trims path and body, so the loop gives
the same rule when it starts from the trimmed path and body. -/
theorem foldl_decodeEntry_trim (sprint : Val → Str) :
    ∀ (set : Bindings) (r : PocRule), (∃ e ∈ set, e.2.isStrMap = false) →
      set.foldl (decodeEntry sprint) r =
        set.foldl (decodeEntry sprint)
          { r with Path := TrimSpace r.Path, Body := TrimSpace r.Body } := by
  intro set
  induction set with
  | nil => intro r h; obtain ⟨e, he, _⟩ := h; simp at he
  | cons e es ih =>
    intro r h
    rw [List.foldl_cons, List.foldl_cons]
    cases hm : e.2.isStrMap with
    | true =>
      rw [decodeEntry_skipped sprint r e hm, decodeEntry_skipped sprint _ e hm]
      apply ih
      obtain ⟨x, hx, hxm⟩ := h
      rcases List.mem_cons.1 hx with hxe | hxe
      · rw [hxe, hm] at hxm; exact absurd hxm (by decide)
      · exact ⟨x, hxe, hxm⟩
    | false =>
      rw [decodeEntry_substituted sprint r e hm, decodeEntry_substituted sprint _ e hm]
      simp only [TrimSpace_TrimSpace]

theorem templated_of_templateRule (r : PocRule) (h : templateRule r) :
    templated { r with Path := TrimSpace r.Path, Body := TrimSpace r.Body } :=
  ⟨h.1, edged_TrimSpace _, h.2.1, edged_TrimSpace _, h.2.2⟩

theorem foldl_perm_of_comm {α β : Type} (f : β → α → β) (Inv : β → Prop) {l1 l2 : List α}
    (hp : l1.Perm l2) :
    (∀ x ∈ l1, ∀ z, Inv z → Inv (f z x)) →
    (∀ x ∈ l1, ∀ y ∈ l1, ∀ z, Inv z → f (f z x) y = f (f z y) x) →
    ∀ z, Inv z → l1.foldl f z = l2.foldl f z := by
  induction hp with
  | nil => intro _ _ z _; rfl
  | cons x _ ih =>
    intro hinv hcomm z hz
    rw [List.foldl_cons, List.foldl_cons]
    exact ih (fun a ha => hinv a (List.mem_cons_of_mem _ ha))
      (fun a ha b hb => hcomm a (List.mem_cons_of_mem _ ha) b (List.mem_cons_of_mem _ hb))
      (f z x) (hinv x (List.mem_cons_self _ _) z hz)
  | swap x y l =>
    intro _ hcomm z hz
    simp only [List.foldl_cons]
    rw [hcomm y (List.mem_cons_self _ _) x (List.mem_cons_of_mem _ (List.mem_cons_self _ _)) z hz]
  | trans p1 _ ih1 ih2 =>
    intro hinv hcomm z hz
    rw [ih1 hinv hcomm z hz]
    exact ih2 (fun a ha => hinv a (p1.mem_iff.2 ha))
      (fun a ha b hb => hcomm a (p1.mem_iff.2 ha) b (p1.mem_iff.2 hb)) z hz

theorem replaceFrom_nil_length_le (old : Str) :
    ∀ (s : Str) (n : Nat), (replaceFrom old [] n s).length ≤ s.length := by
  intro s
  induction s with
  | nil => intro n; simp [replaceFrom]
  | cons c cs ih =>
    intro n
    cases n with
    | succ m =>
      rw [replaceFrom, List.length_cons]
      exact Nat.le_succ_of_le (ih m)
    | zero =>
      rw [replaceFrom]
      split
      · rw [List.nil_append, List.length_cons]
        exact Nat.le_succ_of_le (ih _)
      · rw [List.length_cons, List.length_cons]
        exact Nat.succ_le_succ (ih 0)

theorem replaceFrom_nil_length_lt (old : Str) (hold : old ≠ []) :
    ∀ s : Str, Contains s old = true → (replaceFrom old [] 0 s).length < s.length := by
  intro s
  induction s with
  | nil =>
    intro h
    cases old with
    | nil => exact absurd rfl hold
    | cons a as => simp [Contains, List.isPrefixOf] at h
  | cons c cs ih =>
    intro h
    rw [replaceFrom]
    by_cases hp : old.isPrefixOf (c :: cs) = true
    · rw [if_pos hp, List.nil_append, List.length_cons]
      exact Nat.lt_succ_of_le (replaceFrom_nil_length_le old cs _)
    · rw [if_neg hp, List.length_cons, List.length_cons]
      rw [Contains, Bool.or_eq_true] at h
      rcases h with h | h
      · exact absurd h hp
      · exact Nat.succ_lt_succ (ih h)

theorem map_fill_of_absent (k v : Str) :
    ∀ ps : List Piece, Piece.slot k ∉ ps → ps.map (fill k v) = ps := by
  intro ps
  induction ps with
  | nil => intro _; rfl
  | cons p ps ih =>
    intro h
    rw [List.mem_cons, not_or] at h
    rw [List.map_cons, ih h.2]
    cases p with
    | text t => rfl
    | slot k1 =>
      have hne : k1 ≠ k := fun e => h.1 (by rw [e])
      simp only [fill, if_neg hne]

theorem not_contains_hole (k s : Str) (hk : braceFree k = true)
    (hs : isTemplateWithout [k] s) : Contains s (hole k) = false := by
  obtain ⟨ps, hps, rfl, habs⟩ := hs
  by_contra hc
  rw [Bool.not_eq_false] at hc
  have hlt := replaceFrom_nil_length_lt (hole k) (by simp [hole_eq]) _ hc
  rw [replaceFrom_renderPieces k [] hk ps hps,
    map_fill_of_absent k [] ps (habs k (List.mem_singleton_self k))] at hlt
  exact Nat.lt_irrefl _ hlt

theorem isTemplateWithout_mono (K1 K2 : List Str) (s : Str) (h : ∀ k ∈ K2, k ∈ K1)
    (hs : isTemplateWithout K1 s) : isTemplateWithout K2 s := by
  obtain ⟨ps, hps, hr, habs⟩ := hs
  exact ⟨ps, hps, hr, fun k hk => habs k (h k hk)⟩

theorem isTemplate_of_without (K : List Str) (s : Str) (hs : isTemplateWithout K s) :
    isTemplate s := by
  obtain ⟨ps, hps, hr, _⟩ := hs
  exact ⟨ps, hps, hr⟩

theorem isTemplateWithout_nil (s : Str) (hs : isTemplate s) : isTemplateWithout [] s := by
  obtain ⟨ps, hps, hr⟩ := hs
  exact ⟨ps, hps, hr, fun k hk => absurd hk (List.not_mem_nil k)⟩

theorem isTemplateWithout_step (K : List Str) (k v s : Str) (hk : braceFree k = true)
    (hv : plainText v = true) (hs : isTemplateWithout K s) :
    isTemplateWithout (k :: K) (ReplaceAll s (hole k) v) := by
  obtain ⟨ps, hps, rfl, habs⟩ := hs
  refine ⟨ps.map (fill k v), fill_wellFormed k v hv ps hps,
    (ReplaceAll_renderPieces k v hk hv ps hps).symm, ?_⟩
  intro k1 hk1 hmem
  obtain ⟨q, hq, hfill⟩ := List.mem_map.1 hmem
  cases q with
  | text t => simp [fill] at hfill
  | slot k2 =>
    simp only [fill] at hfill
    by_cases h2 : k2 = k
    · rw [if_pos h2] at hfill
      exact Piece.noConfusion hfill
    · rw [if_neg h2] at hfill
      have hk21 : k2 = k1 := by injection hfill
      subst hk21
      rcases List.mem_cons.1 hk1 with h | h
      · exact h2 h
      · exact habs k2 h hq

theorem decodeEntry_templatedWithout (sprint : Val → Str) (K : List Str) (r : PocRule)
    (e : Str × Val) (he : settledEntry sprint e = true) (hr : templatedWithout K r) :
    ∃ K1 : List Str, templatedWithout K1 (decodeEntry sprint r e) ∧ (∀ k ∈ K, k ∈ K1) ∧
      (e.2.isStrMap = false → e.1 ∈ K1) := by
  rcases settledEntry_cases sprint e he with h | ⟨hm, hk, hv0, hv, hve⟩
  · rw [decodeEntry_skipped sprint r e h]
    exact ⟨K, hr, fun k hk => hk, fun hm => by rw [h] at hm; exact absurd hm (by decide)⟩
  · rw [decodeEntry_substituted sprint r e hm]
    obtain ⟨hp, hpe, hb, hbe, hh⟩ := hr
    have p1 := trimmed_step e.1 (sprint e.2) r.Path hk hv0 hv hve (isTemplate_of_without K _ hp) hpe
    have b1 := trimmed_step e.1 (sprint e.2) r.Body hk hv0 hv hve (isTemplate_of_without K _ hb) hbe
    have p2 := isTemplateWithout_step K e.1 (sprint e.2) r.Path hk hv hp
    have b2 := isTemplateWithout_step K e.1 (sprint e.2) r.Body hk hv hb
    rw [← TrimSpace_of_edged r.Path hpe] at p2
    rw [← TrimSpace_of_edged r.Body hbe] at b2
    refine ⟨e.1 :: K, ⟨p2, p1.2, b2, b1.2, ?_⟩, fun k hk => List.mem_cons_of_mem _ hk,
      fun _ => List.mem_cons_self _ _⟩
    intro h hmem
    obtain ⟨h0, hh0, rfl⟩ := List.mem_map.1 hmem
    exact isTemplateWithout_step K e.1 (sprint e.2) h0.2 hk hv (hh h0 hh0)

theorem foldl_templatedWithout (sprint : Val → Str) :
    ∀ (set : Bindings) (K : List Str) (r : PocRule),
      (∀ e ∈ set, settledEntry sprint e = true) → templatedWithout K r →
      ∃ K1 : List Str, templatedWithout K1 (set.foldl (decodeEntry sprint) r) ∧
        (∀ k ∈ K, k ∈ K1) ∧ (∀ e ∈ set, e.2.isStrMap = false → e.1 ∈ K1) := by
  intro set
  induction set with
  | nil => intro K r _ hr; exact ⟨K, hr, fun k hk => hk, fun e he => absurd he (List.not_mem_nil e)⟩
  | cons e es ih =>
    intro K r hset hr
    obtain ⟨K1, h1, hK1, he1⟩ :=
      decodeEntry_templatedWithout sprint K r e (hset e (List.mem_cons_self _ _)) hr
    obtain ⟨K2, h2, hK2, hes⟩ :=
      ih K1 (decodeEntry sprint r e) (fun x hx => hset x (List.mem_cons_of_mem _ hx)) h1
    refine ⟨K2, h2, fun k hk => hK2 k (hK1 k hk), ?_⟩
    intro x hx hm
    rcases List.mem_cons.1 hx with hxe | hxe
    · rw [hxe] at hm ⊢
      exact hK2 _ (he1 hm)
    · exact hes x hxe hm

theorem replaceFrom_single (c : Char) (new : Str) :
    ∀ s : Str, replaceFrom [c] new 0 s = s.flatMap (fun x => if x = c then new else [x]) := by
  intro s
  induction s with
  | nil => rfl
  | cons x xs ih =>
    rw [replaceFrom, List.flatMap_cons]
    by_cases h : x = c
    · subst h
      simp only [List.isPrefixOf, beq_self_eq_true, Bool.and_self, if_true,
        List.length_singleton, Nat.sub_self, Bool.true_and]
      rw [ih]
    · have hcx : (c == x) = false := by simpa using fun e => h e.symm
      simp only [List.isPrefixOf, hcx, Bool.false_and, Bool.false_eq_true, if_false, if_neg h,
        List.singleton_append]
      rw [ih]

theorem ReplaceAll_single (c : Char) (s : Str) :
    ReplaceAll s [c] ['%', '2', '0'] =
      s.flatMap (fun x => if x = c then ['%', '2', '0'] else [x]) := by
  unfold ReplaceAll
  rw [if_neg (by simp), if_neg (by simp)]
  exact replaceFrom_single c _ s

theorem isPrefixOf_of_flatMap (c z : Char) (hz : z ∉ ['%', '2', '0']) :
    ∀ (m s : Str), Contains (m ++ [z]) ['%', '2', '0'] = false →
      (m ++ [z]).isPrefixOf (s.flatMap (fun x => if x = c then ['%', '2', '0'] else [x])) = true →
      (m ++ [z]).isPrefixOf s = true := by
  simp only [List.mem_cons, List.mem_singleton, List.not_mem_nil, or_false, not_or] at hz
  intro m
  induction m with
  | nil =>
    intro s _ h
    cases s with
    | nil => simp at h
    | cons x xs =>
      rw [List.flatMap_cons] at h
      by_cases hx : x = c
      · rw [if_pos hx, List.nil_append, List.cons_append, isPrefixOf_cons_cons, Bool.and_eq_true,
          beq_iff_eq] at h
        exact absurd h.1 hz.1
      · rw [if_neg hx, List.singleton_append] at h
        rw [List.nil_append, isPrefixOf_cons_cons, Bool.and_eq_true] at h ⊢
        exact ⟨h.1, by simp⟩
  | cons a m1 ih =>
    intro s hpat h
    rw [List.cons_append, Contains, Bool.or_eq_false_iff] at hpat
    cases s with
    | nil => simp at h
    | cons x xs =>
      rw [List.flatMap_cons] at h
      by_cases hx : x = c
      · exfalso
        rw [if_pos hx, List.cons_append, List.cons_append, isPrefixOf_cons_cons, Bool.and_eq_true,
          beq_iff_eq] at h
        obtain ⟨ha, h1⟩ := h
        subst ha
        cases m1 with
        | nil =>
          rw [List.nil_append, List.cons_append, isPrefixOf_cons_cons, Bool.and_eq_true,
            beq_iff_eq] at h1
          exact hz.2.1 h1.1
        | cons b m2 =>
          rw [List.cons_append, List.cons_append, isPrefixOf_cons_cons, Bool.and_eq_true,
            beq_iff_eq] at h1
          obtain ⟨hb, h2⟩ := h1
          subst hb
          cases m2 with
          | nil =>
            rw [List.nil_append, List.cons_append, isPrefixOf_cons_cons, Bool.and_eq_true,
              beq_iff_eq] at h2
            exact hz.2.2 h2.1
          | cons d m3 =>
            rw [List.cons_append, List.cons_append, isPrefixOf_cons_cons, Bool.and_eq_true,
              beq_iff_eq] at h2
            have hd := h2.1
            subst hd
            have hpre := hpat.1
            simp [List.isPrefixOf] at hpre
      · rw [if_neg hx, List.singleton_append, List.cons_append, isPrefixOf_cons_cons,
          Bool.and_eq_true] at h
        rw [List.cons_append, isPrefixOf_cons_cons, Bool.and_eq_true]
        exact ⟨h.1, ih xs hpat.2 h.2⟩

theorem isPrefixOf_of_append_braces (pat : Str) (hpat : '}' ∉ pat) :
    ∀ l : Str, pat.isPrefixOf (l ++ ['}', '}']) = true → pat.isPrefixOf l = true := by
  induction pat with
  | nil => intro l _; simp
  | cons p ps ih =>
    rw [List.mem_cons, not_or] at hpat
    intro l h
    cases l with
    | nil =>
      rw [List.nil_append, isPrefixOf_cons_cons, Bool.and_eq_true, beq_iff_eq] at h
      exact absurd h.1.symm hpat.1
    | cons y l1 =>
      rw [List.cons_append, isPrefixOf_cons_cons, Bool.and_eq_true] at h
      rw [isPrefixOf_cons_cons, Bool.and_eq_true]
      exact ⟨h.1, ih hpat.2 l1 h.2⟩

theorem not_contains_append_braces :
    ∀ k : Str, Contains k ['%', '2', '0'] = false →
      Contains (k ++ ['}', '}']) ['%', '2', '0'] = false := by
  intro k
  induction k with
  | nil => intro _; decide
  | cons a k1 ih =>
    intro h
    rw [Contains, Bool.or_eq_false_iff] at h
    rw [List.cons_append, Contains, Bool.or_eq_false_iff]
    refine ⟨?_, ih h.2⟩
    by_contra hc
    rw [Bool.not_eq_false] at hc
    have := isPrefixOf_of_append_braces ['%', '2', '0'] (by decide) (a :: k1) hc
    rw [h.1] at this
    exact absurd this (by decide)

theorem not_contains_hole_escape (k : Str) (h : Contains k ['%', '2', '0'] = false) :
    Contains (hole k) ['%', '2', '0'] = false := by
  have h1 := not_contains_append_braces k h
  rw [hole_eq, Contains, Contains, h1]
  rfl

theorem contains_of_flatMap (c : Char) (k : Str) (hk : Contains k ['%', '2', '0'] = false) :
    ∀ s : Str,
      Contains (s.flatMap (fun x => if x = c then ['%', '2', '0'] else [x])) (hole k) = true →
      Contains s (hole k) = true := by
  have hshape : hole k = ('{' :: '{' :: (k ++ ['}'])) ++ ['}'] := by simp [hole_eq]
  have hpre : ∀ s : Str,
      (hole k).isPrefixOf (s.flatMap (fun x => if x = c then ['%', '2', '0'] else [x])) = true →
      (hole k).isPrefixOf s = true := by
    intro s h
    have hesc := not_contains_hole_escape k hk
    rw [hshape] at h hesc ⊢
    exact isPrefixOf_of_flatMap c '}' (by decide) _ s hesc h
  intro s
  induction s with
  | nil => intro h; exact h
  | cons x xs ih =>
    intro h
    rw [Contains, Bool.or_eq_true]
    by_cases hx : x = c
    · right
      apply ih
      rw [List.flatMap_cons, if_pos hx] at h
      simp only [List.cons_append, List.nil_append, Contains, hole_eq, isPrefixOf_cons_cons,
        Bool.or_eq_true, Bool.and_eq_true, beq_iff_eq] at h
      rcases h with h | h | h | h
      · exact absurd h.1 (by decide)
      · exact absurd h.1 (by decide)
      · exact absurd h.1 (by decide)
      · rw [hole_eq]; exact h
    · by_cases hp : (hole k).isPrefixOf
          ((x :: xs).flatMap (fun x => if x = c then ['%', '2', '0'] else [x])) = true
      · exact Or.inl (hpre _ hp)
      · right
        apply ih
        rw [List.flatMap_cons, if_neg hx, List.singleton_append, Contains, Bool.or_eq_true] at h
        rw [List.flatMap_cons, if_neg hx, List.singleton_append] at hp
        rcases h with h | h
        · exact absurd h hp
        · exact h

theorem edged_flatMap (c : Char) (s : Str) (h : edged s = true) :
    edged (s.flatMap (fun x => if x = c then ['%', '2', '0'] else [x])) = true := by
  unfold edged at h ⊢
  rw [Bool.and_eq_true] at h ⊢
  constructor
  · cases s with
    | nil => rfl
    | cons x xs =>
      rw [List.flatMap_cons]
      by_cases hx : x = c
      · rw [if_pos hx]; rfl
      · rw [if_neg hx]; exact h.1
  · rcases List.eq_nil_or_concat s with hs | ⟨init, y, hs⟩
    · rw [hs]; rfl
    · rw [List.concat_eq_append] at hs
      subst hs
      rw [List.getLast?_concat] at h
      rw [List.flatMap_append, List.flatMap_singleton]
      by_cases hy : y = c
      · rw [if_pos hy]
        have : init.flatMap (fun x => if x = c then ['%', '2', '0'] else [x]) ++ ['%', '2', '0'] =
            (init.flatMap (fun x => if x = c then ['%', '2', '0'] else [x]) ++ ['%', '2']) ++
              ['0'] := by simp
        rw [this, List.getLast?_concat]
        rfl
      · rw [if_neg hy, List.getLast?_concat]
        exact h.2

/-- After one pass with settled bindings over a template rule no hole of a
substituted key is left, and path and body are trimmed. -/
theorem DecodeSet_settled (sprint : Val → Str) (r : PocRule) (set : Bindings)
    (hsub : ∃ e ∈ set, e.2.isStrMap = false)
    (hentries : ∀ e ∈ set, settledEntry sprint e = true)
    (hkeys : ∀ e ∈ set, e.2.isStrMap = false → Contains e.1 "%20".toList = false)
    (hrule : templateRule r) :
    noHoleLeft (r.DecodeSet sprint set) set = true ∧
    trimmed (r.DecodeSet sprint set) = true := by
  have h0 : templatedWithout [] { r with Path := TrimSpace r.Path, Body := TrimSpace r.Body } :=
    ⟨isTemplateWithout_nil _ hrule.1, edged_TrimSpace _, isTemplateWithout_nil _ hrule.2.1,
      edged_TrimSpace _, fun h hh => isTemplateWithout_nil _ (hrule.2.2 h hh)⟩
  obtain ⟨K1, hF, _, hK⟩ := foldl_templatedWithout sprint set [] _ hentries h0
  rw [← foldl_decodeEntry_trim sprint set r hsub] at hF
  unfold PocRule.DecodeSet
  dsimp only
  generalize set.foldl (decodeEntry sprint) r = F at hF
  obtain ⟨hp, hpe, hb, hbe, hh⟩ := hF
  rw [ReplaceAll_single, ReplaceAll_single]
  constructor
  · unfold noHoleLeft
    rw [List.all_eq_true]
    intro e he
    cases hm : e.2.isStrMap with
    | true => rfl
    | false =>
      have hk : braceFree e.1 = true := by
        rcases settledEntry_cases sprint e (hentries e he) with h | h
        · rw [hm] at h; exact absurd h (by decide)
        · exact h.2.1
      have hmem : ∀ k ∈ [e.1], k ∈ K1 := by
        intro k hk1
        rw [List.mem_singleton.1 hk1]
        exact hK e he hm
      have hpc : Contains F.Path (hole e.1) = false :=
        not_contains_hole e.1 _ hk (isTemplateWithout_mono K1 _ _ hmem hp)
      have hbc : Contains F.Body (hole e.1) = false :=
        not_contains_hole e.1 _ hk (isTemplateWithout_mono K1 _ _ hmem hb)
      have hhc : ∀ h ∈ F.Headers, Contains h.2 (hole e.1) = false := fun h hmemh =>
        not_contains_hole e.1 _ hk (isTemplateWithout_mono K1 _ _ hmem (hh h hmemh))
      have hpercent : Contains e.1 ['%', '2', '0'] = false := hkeys e he hm
      have hpn : Contains ((F.Path.flatMap fun x => if x = ' ' then ['%', '2', '0'] else [x]).flatMap
          fun x => if x = '+' then ['%', '2', '0'] else [x]) (hole e.1) = false := by
        by_contra hc
        rw [Bool.not_eq_false] at hc
        have h1 := contains_of_flatMap ' ' e.1 hpercent _
          (contains_of_flatMap '+' e.1 hpercent _ hc)
        rw [hpc] at h1
        exact absurd h1 (by decide)
      simp only [Bool.false_or, Bool.and_eq_true, Bool.not_eq_true', List.all_eq_true]
      exact ⟨⟨hpn, hbc⟩, hhc⟩
  · unfold trimmed
    rw [Bool.and_eq_true, beq_iff_eq, beq_iff_eq]
    exact ⟨TrimSpace_of_edged _ (edged_flatMap '+' _ (edged_flatMap ' ' _ hpe)),
      TrimSpace_of_edged _ hbe⟩

theorem templateRule_jsonRule : templateRule jsonRule :=
  ⟨⟨[.text "/echo/".toList, .slot "flag".toList], by decide, by decide⟩,
    ⟨[.text "\x7bid:".toList, .slot "id".toList, .text "\x7d".toList], by decide, by decide⟩,
    fun h hh => by
      have : h = ("X-Flag".toList, "{{flag}}-{{id}}".toList) := by simpa [jsonRule] using hh
      subst this
      exact ⟨[.slot "flag".toList, .text "-".toList, .slot "id".toList], by decide, by decide⟩⟩

/-! ## Claims -/

/-- C1 (the code at the failing input): the rule `tokenRule` searches
`token=(?P<tok>[a-z0-9]+)` in the body `token=abc` and verifies true, and the
capture `tok ↦ abc` is in its per-rule map; yet the bindings of the scanner hold
no `tok` afterwards, the next rule is dispatched with the hole `{{tok}}` still
in its path, and the map handed to its evaluation holds no `tok`. -/
theorem C1_search_capture_is_dropped :
    (ruleStep sampleExternals sampleScanner sampleTarget tokenRule sampleWorld).ret =
      .done true none ∧
    lookupKey "tok".toList
      (ruleStep sampleExternals sampleScanner sampleTarget tokenRule sampleWorld).set =
      some (.str "abc".toList) ∧
    lookupKey "tok".toList
      (ruleStep sampleExternals sampleScanner sampleTarget tokenRule sampleWorld).scanner.set =
      none ∧
    (Start sampleExternals sampleScanner sampleTarget [tokenRule, useRule] sampleWorld).rules.map
      (fun r => r.Path) = ["/token".toList, "/use/{{tok}}".toList] ∧
    (stepsOf sampleExternals sampleTarget sampleScanner [tokenRule, useRule] sampleWorld).map
      (fun st => lookupKey "tok".toList st.set) = [some (.str "abc".toList), none] ∧
    lookupKey "tok".toList
      (Start sampleExternals sampleScanner sampleTarget [tokenRule, useRule] sampleWorld).scanner.set =
      none := by
  decide

/-- C2 (as stated, refuted): on the empty rules list no rule fails, so the AND
of the rule verdicts is true, but `Start` returns `(false, nil)`. -/
theorem C2_empty_list_returns_false :
    (∀ st ∈ stepsOf sampleExternals sampleTarget sampleScanner [] sampleWorld,
      st.ret.isVerdict = true) ∧
    ((stepsOf sampleExternals sampleTarget sampleScanner [] sampleWorld).all
      fun st => st.ret.isTrue) = true ∧
    (Start sampleExternals sampleScanner sampleTarget [] sampleWorld).ret = .done false none := by
  decide

/-- C2 (amended): for every target and every rules list in which every rule
returns a verdict with a nil error, `Start` returns a nil error and, for a
non-empty list, the AND of the rule verdicts; for the empty list it returns
false. -/
theorem C2_start_is_conjunction (X : Externals) (s : Scanner) (target : Str)
    (rules : List PocRule) (w : World)
    (hverdicts : ∀ st ∈ stepsOf X target s rules w, st.ret.isVerdict = true) :
    (Start X s target rules w).ret =
      .done (!rules.isEmpty && (stepsOf X target s rules w).all fun st => st.ret.isTrue) none := by
  cases rules with
  | nil => rfl
  | cons rule rest =>
    rw [stepsOf] at hverdicts ⊢
    have h0 := hverdicts _ (List.mem_cons_self _ _)
    have hrest := fun st hst => hverdicts st (List.mem_cons_of_mem _ hst)
    by_cases ht : (ruleStep X s target rule w).ret = .done true none
    · rw [Start, startLoop_cons_true X target s false rule rest w ht]
      simp only [List.isEmpty_cons, Bool.not_false, Bool.true_and, List.all_cons, ht, Ret.isTrue]
      exact startLoop_true_ret X target rest _ _ hrest
    · rw [Start, startLoop_cons_stop X target s false rule rest w ht]
      have hf : (ruleStep X s target rule w).ret.isTrue = false := by
        rw [← Bool.not_eq_true, isTrue_iff]; exact ht
      simp only [List.isEmpty_cons, Bool.not_false, Bool.true_and, List.all_cons, hf,
        Bool.false_and]
      revert h0 ht
      cases (ruleStep X s target rule w).ret with
      | panicked => simp [Ret.isVerdict]
      | done v e => cases v <;> cases e <;> simp [Ret.isVerdict]

/-- C2 witness: a true rule followed by a false rule. -/
theorem C2_start_is_conjunction_witness :
    (∀ st ∈ stepsOf sampleExternals sampleTarget sampleScanner [trueRule, falseRule] sampleWorld,
      st.ret.isVerdict = true) ∧
    (Start sampleExternals sampleScanner sampleTarget [trueRule, falseRule] sampleWorld).ret =
      .done false none :=
  ⟨by decide,
    (C2_start_is_conjunction sampleExternals sampleScanner sampleTarget [trueRule, falseRule]
      sampleWorld (by decide)).trans (by decide)⟩

/-- C3 (as stated, refuted): the single rule `malformedRule` is the first rule
that raises an error, its error coming from `SetupRequest`; the HTTP
collaborator is called 0 times, not 0 + 1 times. -/
theorem C3_failed_request_is_not_dispatched :
    (stepsOf sampleExternals sampleTarget sampleScanner [malformedRule] sampleWorld).map
      (fun st => st.ret) = [.done false (some "malformed method".toList)] ∧
    (Start sampleExternals sampleScanner sampleTarget [malformedRule] sampleWorld).ret =
      .done false (some "malformed method".toList) ∧
    (Start sampleExternals sampleScanner sampleTarget [malformedRule] sampleWorld).world.log.length
      = 0 := by
  decide

/-- C3 (amended): if rule `i` is the first rule that does not verify true (it
verifies false, raises an error or panics), then `Start` hands to the HTTP
collaborator exactly the requests of the rules `0..i`, in order and once each,
the request of rule `i` being absent when `SetupRequest` failed for it: `i + 1`
calls, or `i` calls in that case; the rules after `i` are left unsubstituted and
`Start` returns what rule `i` returned. -/
theorem C3_start_stops_at_first_failure (X : Externals) (s : Scanner) (target : Str)
    (rules : List PocRule) (w : World) (i : Nat) (hi : i < rules.length)
    (hbefore : ∀ st ∈ (stepsOf X target s rules w).take i, st.ret = .done true none)
    (hat : ∀ st, (stepsOf X target s rules w).get? i = some st → st.ret ≠ .done true none) :
    (Start X s target rules w).world.log =
        w.log ++ ((stepsOf X target s rules w).take (i + 1)).filterMap
          (fun st => dispatchOf X target st.rule) ∧
    (Start X s target rules w).world.log.length =
        w.log.length + i +
          (((stepsOf X target s rules w).get? i).map (Step.dispatches X target)).getD 0 ∧
    (∀ st ∈ (stepsOf X target s rules w).take i, Step.dispatches X target st = 1) ∧
    (Start X s target rules w).rules =
        ((stepsOf X target s rules w).take (i + 1)).map (fun st => st.rule) ++
          rules.drop (i + 1) ∧
    (∀ st, (stepsOf X target s rules w).get? i = some st →
        (Start X s target rules w).ret = st.ret) := by
  obtain ⟨h1, h2, h3⟩ := startLoop_stops X target rules s false w i hi hbefore hat
  have hdisp : ∀ st ∈ (stepsOf X target s rules w).take i,
      (dispatchOf X target st.rule).isSome = true := by
    intro st hst
    have hmem : st ∈ stepsOf X target s rules w := List.mem_of_mem_take hst
    have hret := hbefore st hst
    clear h1 h2 h3 hbefore hat hst hi
    induction rules generalizing s w with
    | nil => simp [stepsOf] at hmem
    | cons rule rest ih =>
      rw [stepsOf] at hmem
      rcases List.mem_cons.1 hmem with h | h
      · subst h
        exact ruleStep_verdict_dispatched X s target rule w true hret
      · exact ih _ _ h
  refine ⟨h1, ?_, ?_, h2, h3⟩
  · rw [Start, h1, List.length_append,
      filterMap_take_succ_length _ _ i (by rw [stepsOf_length]; exact hi) hdisp]
    cases (stepsOf X target s rules w).get? i <;> simp [Step.dispatches, Nat.add_assoc]
  · intro st hst
    obtain ⟨b, hb⟩ := Option.isSome_iff_exists.1 (hdisp st hst)
    simp [Step.dispatches, hb]

/-- C3 witness: true, false, true; the run stops after the second rule with two
requests dispatched and the third rule untouched. -/
theorem C3_start_stops_at_first_failure_witness :
    (∀ st ∈ (stepsOf sampleExternals sampleTarget sampleScanner
        [trueRule, falseRule, trueRule] sampleWorld).take 1, st.ret = .done true none) ∧
    (∀ st, (stepsOf sampleExternals sampleTarget sampleScanner
        [trueRule, falseRule, trueRule] sampleWorld).get? 1 = some st →
        st.ret ≠ .done true none) ∧
    (Start sampleExternals sampleScanner sampleTarget [trueRule, falseRule, trueRule]
        sampleWorld).world.log.length = 2 :=
  ⟨by decide, by simp; decide,
    (C3_start_stops_at_first_failure sampleExternals sampleScanner sampleTarget
      [trueRule, falseRule, trueRule] sampleWorld 1 (by decide) (by decide)
      (by simp; decide)).2.1.trans (by decide)⟩

/-- C4: let every group be non-empty and let every rule of the groups have a
verdict `v` that it returns, with a nil error, in whatever world and however
often it has been substituted and dispatched before (the rules form a set `S`
closed under the in-place substitution of a dispatch). Then, in whatever order
the groups are visited, `StartByGroups` returns a nil error and a verdict that
is true exactly when some group has all of its rules verifying true. -/
theorem C4_groups_or_of_and (X : Externals) (s : Scanner) (target : Str)
    (groups : List (Str × List PocRule)) (w : World) (S : PocRule → Prop) (v : PocRule → Bool)
    (hnonempty : ∀ g ∈ groups, g.2 ≠ [])
    (hrules : ∀ g ∈ groups, ∀ r ∈ g.2, S r)
    (hstable : ∀ r, S r → ∀ w, (ruleStep X s target r w).ret = .done (v r) none ∧
      S (ruleStep X s target r w).rule ∧ v (ruleStep X s target r w).rule = v r) :
    ∀ visited : List (Str × List PocRule), visited.Perm groups →
      ∃ verify, (StartByGroups X s target visited w).ret = .done verify none ∧
        (verify = true ↔ ∃ g ∈ groups, ∀ r ∈ g.2, v r = true) := by
  intro visited hperm
  refine ⟨visited.any fun g => g.2.all v, ?_, ?_⟩
  · exact groupsLoop_stable X s target S v hstable visited w
      (fun g hg => hnonempty g (hperm.mem_iff.1 hg))
      (fun g hg => hrules g (hperm.mem_iff.1 hg))
  · simp only [List.any_eq_true, List.all_eq_true]
    constructor
    · rintro ⟨g, hg, h⟩
      exact ⟨g, hperm.mem_iff.1 hg, h⟩
    · rintro ⟨g, hg, h⟩
      exact ⟨g, hperm.mem_iff.2 hg, h⟩

/-- C4 witness: the groups `g1 = [falseRule]` and `g2 = [trueRule]`, visited in
the other order; the verdict is true. -/
theorem C4_groups_or_of_and_witness :
    (∀ g ∈ [("g1".toList, [falseRule]), ("g2".toList, [trueRule])], g.2 ≠ []) ∧
    (StartByGroups sampleExternals sampleScanner sampleTarget
      [("g2".toList, [trueRule]), ("g1".toList, [falseRule])] sampleWorld).ret =
        .done true none ∧
    ∃ verify, (StartByGroups sampleExternals sampleScanner sampleTarget
      [("g2".toList, [trueRule]), ("g1".toList, [falseRule])] sampleWorld).ret =
        .done verify none ∧
      (verify = true ↔ ∃ g ∈ [("g1".toList, [falseRule]), ("g2".toList, [trueRule])],
        ∀ r ∈ g.2, (fun r : PocRule => decide (r.Expression = "true".toList)) r = true) :=
  ⟨by decide, by decide,
    C4_groups_or_of_and sampleExternals sampleScanner sampleTarget
      [("g1".toList, [falseRule]), ("g2".toList, [trueRule])] sampleWorld
      (fun r => r = trueRule ∨ r = falseRule)
      (fun r => decide (r.Expression = "true".toList))
      (by decide)
      (by decide)
      (by
        rintro r (rfl | rfl) w
        · exact ⟨rfl, Or.inl rfl, rfl⟩
        · exact ⟨rfl, Or.inr rfl, rfl⟩)
      [("g2".toList, [trueRule]), ("g1".toList, [falseRule])]
      (List.Perm.swap _ _ _)⟩

/-- C5 (the code at the failing input): the group `[falseRule, trueRule]` has
two rules and its first rule verifies false. A single `Start` on it dispatches
one request; `StartByGroups` runs `Start` on the group once per rule of the
group and dispatches the request of the first rule twice. -/
theorem C5_group_is_run_once_per_rule :
    (ruleStep sampleExternals sampleScanner sampleTarget falseRule sampleWorld).ret =
      .done false none ∧
    (Start sampleExternals sampleScanner sampleTarget [falseRule, trueRule] sampleWorld).world.log
      = [(⟨⟨"http://host/".toList⟩, "GET".toList, [], []⟩, false)] ∧
    (StartByGroups sampleExternals sampleScanner sampleTarget
      [("g1".toList, [falseRule, trueRule])] sampleWorld).world.log =
      [(⟨⟨"http://host/".toList⟩, "GET".toList, [], []⟩, false),
       (⟨⟨"http://host/".toList⟩, "GET".toList, [], []⟩, false)] ∧
    (StartByGroups sampleExternals sampleScanner sampleTarget
      [("g1".toList, [falseRule, trueRule])] sampleWorld).ret = .done false none := by
  decide

/-- C6 (the code at the failing input): `Start` on the single rule `trueRule`
returns `(true, nil)` having acquired one `Request` and one `Response` and
released none: `scan` records them in its per-rule copy of the bindings, and
the release statements of `Start` look them up in the bindings of the scanner. -/
theorem C6_pooled_objects_are_not_released :
    (Start sampleExternals sampleScanner sampleTarget [trueRule] sampleWorld).ret =
      .done true none ∧
    (Start sampleExternals sampleScanner sampleTarget [trueRule] sampleWorld).world.requestsAcquired
      = sampleWorld.requestsAcquired + 1 ∧
    (Start sampleExternals sampleScanner sampleTarget [trueRule] sampleWorld).world.requestsReleased
      = sampleWorld.requestsReleased ∧
    (Start sampleExternals sampleScanner sampleTarget [trueRule] sampleWorld).world.responsesAcquired
      = sampleWorld.responsesAcquired + 1 ∧
    (Start sampleExternals sampleScanner sampleTarget [trueRule] sampleWorld).world.responsesReleased
      = sampleWorld.responsesReleased ∧
    (lookupKey "request".toList
      (ruleStep sampleExternals sampleScanner sampleTarget trueRule sampleWorld).set).isSome = true ∧
    lookupKey "request".toList
      (ruleStep sampleExternals sampleScanner sampleTarget trueRule sampleWorld).scanner.set = none := by
  decide

/-- C7: for every rule and every bindings map (the empty one included), the path
of the rule after `PocRule.DecodeSet` contains neither a space nor a `+`. -/
theorem C7_path_has_no_space_or_plus (sprint : Val → Str) (r : PocRule) (set : Bindings) :
    ' ' ∉ (r.DecodeSet sprint set).Path ∧ '+' ∉ (r.DecodeSet sprint set).Path :=
  DecodeSet_path_free sprint r set

/-- C8 (as stated, refuted): with the binding `a ↦ "{{a}}x"` and the path
`{{a}}`, one pass gives `{{a}}x`, a second pass gives `{{a}}xx`, and `{{a}}` still
occurs after the second pass. A second pass also changes the path when a value
ends in a line feed (`p{{a}}` with `a ↦ "x\n"`), when a value is empty (`x`, a
tab and `{{a}}` with `a ↦ ""`), when a value ends in a brace (`{{a}}{a}}` with
`a ↦ "{"`), when a key holds the `%20` that the path gets for a space (`{{a b}}`
with the key `a%20b`), when a key holds a brace (`{{u}}{{a}}}}` with the keys
`u}}v` and `a`), and when holes nest (`{{a{{b}}c}}` with the keys `avc` and
`b`). -/
theorem C8_second_pass_differs :
    (holeRule.DecodeSet sprintSample [("a".toList, .str "{{a}}x".toList)]).Path = "{{a}}x".toList ∧
    ((holeRule.DecodeSet sprintSample [("a".toList, .str "{{a}}x".toList)]).DecodeSet sprintSample
        [("a".toList, .str "{{a}}x".toList)]).Path = "{{a}}xx".toList ∧
    ((holeRule.DecodeSet sprintSample [("a".toList, .str "{{a}}x".toList)]).DecodeSet sprintSample
        [("a".toList, .str "{{a}}x".toList)]) ≠
      holeRule.DecodeSet sprintSample [("a".toList, .str "{{a}}x".toList)] ∧
    Contains ((holeRule.DecodeSet sprintSample [("a".toList, .str "{{a}}x".toList)]).DecodeSet
        sprintSample [("a".toList, .str "{{a}}x".toList)]).Path (hole "a".toList) = true ∧
    (tailRule.DecodeSet sprintSample [("a".toList, .str "x\n".toList)]).Path = "px\n".toList ∧
    ((tailRule.DecodeSet sprintSample [("a".toList, .str "x\n".toList)]).DecodeSet sprintSample
        [("a".toList, .str "x\n".toList)]).Path = "px".toList ∧
    ((exprRule "x\t{{a}}".toList "true".toList).DecodeSet sprintSample
        [("a".toList, .str [])]).Path = "x\t".toList ∧
    (((exprRule "x\t{{a}}".toList "true".toList).DecodeSet sprintSample
        [("a".toList, .str [])]).DecodeSet sprintSample [("a".toList, .str [])]).Path =
      "x".toList ∧
    ((exprRule "{{a}}\x7ba\x7d\x7d".toList "true".toList).DecodeSet sprintSample
        [("a".toList, .str "\x7b".toList)]).Path = "{{a}}".toList ∧
    (((exprRule "{{a}}\x7ba\x7d\x7d".toList "true".toList).DecodeSet sprintSample
        [("a".toList, .str "\x7b".toList)]).DecodeSet sprintSample
        [("a".toList, .str "\x7b".toList)]).Path = "\x7b".toList ∧
    ((exprRule "{{a b}}".toList "true".toList).DecodeSet sprintSample
        [("a%20b".toList, .str "v".toList)]).Path = "{{a%20b}}".toList ∧
    (((exprRule "{{a b}}".toList "true".toList).DecodeSet sprintSample
        [("a%20b".toList, .str "v".toList)]).DecodeSet sprintSample
        [("a%20b".toList, .str "v".toList)]).Path = "v".toList ∧
    ((exprRule "{{u}}{{a}}\x7d\x7d".toList "true".toList).DecodeSet sprintSample
        [("u\x7d\x7dv".toList, .str "w".toList), ("a".toList, .str "v".toList)]).Path =
      "{{u}}v\x7d\x7d".toList ∧
    (((exprRule "{{u}}{{a}}\x7d\x7d".toList "true".toList).DecodeSet sprintSample
        [("u\x7d\x7dv".toList, .str "w".toList), ("a".toList, .str "v".toList)]).DecodeSet
        sprintSample
        [("u\x7d\x7dv".toList, .str "w".toList), ("a".toList, .str "v".toList)]).Path =
      "w".toList ∧
    ((exprRule "\x7b\x7ba{{b}}c\x7d\x7d".toList "true".toList).DecodeSet sprintSample
        [("avc".toList, .str "X".toList), ("b".toList, .str "v".toList)]).Path =
      "{{avc}}".toList ∧
    (((exprRule "\x7b\x7ba{{b}}c\x7d\x7d".toList "true".toList).DecodeSet sprintSample
        [("avc".toList, .str "X".toList), ("b".toList, .str "v".toList)]).DecodeSet sprintSample
        [("avc".toList, .str "X".toList), ("b".toList, .str "v".toList)]).Path =
      "X".toList := by
  decide

/-- C8 (amended): for every rule whose path and body, once the white space
around them is trimmed, and whose header values are templates (braces pair up
only in holes `{{k}}` with a brace-free `k`), and for every bindings map whose
substituted entries have a key without a brace and without `%20` and a
non-empty formatted value that cannot open a hole and has no white space at
either end,
one pass of `PocRule.DecodeSet` leaves no `{{k}}` of a substituted key `k` in
path, body and header values, and a second pass with the same bindings yields
the same rule, so no such `{{k}}` remains after it either. -/
theorem C8_settled_second_pass_fixed (sprint : Val → Str) (r : PocRule) (set : Bindings)
    (hentries : ∀ e ∈ set, settledEntry sprint e = true)
    (hkeys : ∀ e ∈ set, e.2.isStrMap = false → Contains e.1 "%20".toList = false)
    (hrule : templateRule r) :
    (r.DecodeSet sprint set).DecodeSet sprint set = r.DecodeSet sprint set ∧
    noHoleLeft (r.DecodeSet sprint set) set = true ∧
    noHoleLeft ((r.DecodeSet sprint set).DecodeSet sprint set) set = true := by
  have hfirst : noHoleLeft (r.DecodeSet sprint set) set = true ∧
      set.foldl (decodeEntry sprint) (r.DecodeSet sprint set) = r.DecodeSet sprint set := by
    by_cases hsub : ∃ e ∈ set, e.2.isStrMap = false
    · obtain ⟨hholes, htrim⟩ := DecodeSet_settled sprint r set hsub hentries hkeys hrule
      exact ⟨hholes, foldl_decodeEntry_fixed sprint _ htrim set hholes⟩
    · have hskip : ∀ e ∈ set, e.2.isStrMap = true := by
        intro e he
        cases hm : e.2.isStrMap with
        | true => rfl
        | false => exact absurd ⟨e, he, hm⟩ hsub
      refine ⟨?_, foldl_decodeEntry_skipped sprint set _ hskip⟩
      unfold noHoleLeft
      rw [List.all_eq_true]
      intro e he
      rw [hskip e he, Bool.true_or]
  have hfix : (r.DecodeSet sprint set).DecodeSet sprint set = r.DecodeSet sprint set := by
    have hC7 := DecodeSet_path_free sprint r set
    have hfold := hfirst.2
    generalize r.DecodeSet sprint set = r1 at hfold hC7 ⊢
    simp only [PocRule.DecodeSet]
    rw [hfold, ReplaceAll_of_not_contains _ _ _ (not_contains_single _ _ hC7.1)]
    simp only [ReplaceAll_of_not_contains _ _ _ (not_contains_single _ _ hC7.2)]
  exact ⟨hfix, hfirst.1, by rw [hfix]; exact hfirst.1⟩

/-- C8 witness: `jsonRule`, whose path begins and whose body ends with a space,
with `flag ↦ "abc"` and `id ↦ 7`: the first pass fills every hole and the second
changes nothing. -/
theorem C8_settled_second_pass_fixed_witness :
    templateRule jsonRule ∧
    (jsonRule.DecodeSet sprintSample
      [("flag".toList, .str "abc".toList), ("id".toList, .int 7)]).Path = "/echo/abc".toList ∧
    (jsonRule.DecodeSet sprintSample
      [("flag".toList, .str "abc".toList), ("id".toList, .int 7)]).Headers =
        [("X-Flag".toList, "abc-7".toList)] ∧
    (jsonRule.DecodeSet sprintSample
        [("flag".toList, .str "abc".toList), ("id".toList, .int 7)]).DecodeSet sprintSample
        [("flag".toList, .str "abc".toList), ("id".toList, .int 7)] =
      jsonRule.DecodeSet sprintSample
        [("flag".toList, .str "abc".toList), ("id".toList, .int 7)] :=
  ⟨templateRule_jsonRule, by decide, by decide,
    (C8_settled_second_pass_fixed sprintSample jsonRule
      [("flag".toList, .str "abc".toList), ("id".toList, .int 7)]
      (by decide) (by decide) templateRule_jsonRule).1⟩

/-- C9 (the code at the failing input): for `substr("abcdef", 2^62, 2^62)` both
arguments are non-negative `int64` values and their sum exceeds the six code
points of the string, yet the `int64` sum wraps to `-2^63`, the range check
passes, and the slice expression panics instead of an error value being
returned. -/
theorem C9_substr_overflow_panics :
    (0 : Int) ≤ 2 ^ 62 ∧ (2 : Int) ^ 62 < 2 ^ 63 ∧
    ((2 : Int) ^ 62 + 2 ^ 62 > ("abcdef".toList.length : Int)) ∧
    wrapInt64 (2 ^ 62 + 2 ^ 62) = -(2 ^ 63) ∧
    substrFunc [.str "abcdef".toList, .int (2 ^ 62), .int (2 ^ 62)] = .panic := by
  decide

/-- C10: for every `set` map (entries with distinct keys, in any textual
order), `PocEvent.DecodeSet` calls `decode.Evaluate` in strictly ascending order
of the keys, once for each entry holding an expression when the run does not
panic; the map passed to the evaluation of the entry with key `b` is exactly the
final bindings restricted to the keys smaller than `b`, so a binding made for a
key `a < b` is in scope for `b`; a permutation of the entries gives the same
run; the keys evaluated are exactly the keys of the map that hold an expression;
and the binding of each such key `b` in the result is the value `decode.Evaluate`
gives for the expression of `b` on the final bindings restricted to the keys
smaller than `b` (there is no binding for `b` where that evaluation fails). -/
theorem C10_set_resolved_in_key_order (X : Externals) (G : Globals) (p : PocEvent)
    (env : CelEnv) (w : World) (hmap : (p.Set.map Prod.fst).Nodup) :
    ((p.DecodeSet X G env w).calls.map Prod.fst).Sorted (· < ·) ∧
    (∀ c ∈ (p.DecodeSet X G env w).calls,
      c.2 = (p.DecodeSet X G env w).set.filter (fun e => e.1 < c.1)) ∧
    (∀ c ∈ (p.DecodeSet X G env w).calls, ∀ e ∈ (p.DecodeSet X G env w).set,
      e.1 < c.1 → e ∈ c.2) ∧
    ((p.DecodeSet X G env w).panicked = false →
      (p.DecodeSet X G env w).calls.map Prod.fst =
        (SortMapKeys p.Set).filter (isExpression p.Set)) ∧
    (∀ q : PocEvent, q.Set.Perm p.Set → q.DecodeSet X G env w = p.DecodeSet X G env w) ∧
    ((p.DecodeSet X G env w).panicked = false →
      ∀ b, b ∈ (p.DecodeSet X G env w).calls.map Prod.fst ↔
        (b ∈ p.Set.map Prod.fst ∧ isExpression p.Set b = true)) ∧
    (∀ c ∈ (p.DecodeSet X G env w).calls, ∃ w1 : World,
      (∀ out, Evaluate X w1 env ((lookupKey c.1 p.Set).getD []) c.2 = .ok out →
        lookupKey c.1 (p.DecodeSet X G env w).set = some (bindingOf X out)) ∧
      (∀ e, Evaluate X w1 env ((lookupKey c.1 p.Set).getD []) c.2 = .error e →
        lookupKey c.1 (p.DecodeSet X G env w).set = none)) ∧
    ((p.DecodeSet X G env w).panicked = false →
      ∀ b ∈ p.Set.map Prod.fst, isExpression p.Set b = true → ∃ w1 : World,
        (∀ out, Evaluate X w1 env ((lookupKey b p.Set).getD [])
            ((p.DecodeSet X G env w).set.filter (fun e => e.1 < b)) = .ok out →
          lookupKey b (p.DecodeSet X G env w).set = some (bindingOf X out)) ∧
        (∀ e, Evaluate X w1 env ((lookupKey b p.Set).getD [])
            ((p.DecodeSet X G env w).set.filter (fun e => e.1 < b)) = .error e →
          lookupKey b (p.DecodeSet X G env w).set = none)) := by
  have hmain : ((p.DecodeSet X G env w).calls.map Prod.fst).Sorted (· < ·) ∧
      (∀ c ∈ (p.DecodeSet X G env w).calls,
        c.2 = (p.DecodeSet X G env w).set.filter (fun e => e.1 < c.1)) ∧
      ((p.DecodeSet X G env w).panicked = false →
        (p.DecodeSet X G env w).calls.map Prod.fst =
          (SortMapKeys p.Set).filter (isExpression p.Set)) ∧
      (∀ c ∈ (p.DecodeSet X G env w).calls, ∃ w1 : World,
        (∀ out, Evaluate X w1 env ((lookupKey c.1 p.Set).getD []) c.2 = .ok out →
          lookupKey c.1 (p.DecodeSet X G env w).set = some (bindingOf X out)) ∧
        (∀ e, Evaluate X w1 env ((lookupKey c.1 p.Set).getD []) c.2 = .error e →
          lookupKey c.1 (p.DecodeSet X G env w).set = none)) := by
    unfold PocEvent.DecodeSet
    dsimp only
    split
    · obtain ⟨ext, tr, _, _, h3, h4, h5, h6, h7⟩ :=
        decodeKeys_spec X G env p.Set (SortMapKeys p.Set)
          { set := [], world := w, calls := [], panicked := false }
          (SortMapKeys_sorted p.Set hmap) (by simp)
      rw [List.nil_append] at h3
      rw [h3]
      exact ⟨(SortMapKeys_sorted p.Set hmap).sublist h4, h5, h6, h7⟩
    · rename_i hlen
      have hnil : p.Set = [] := List.length_eq_zero.1 (by omega)
      simp [hnil, SortMapKeys]
  have hkeys : (p.DecodeSet X G env w).panicked = false →
      ∀ b, b ∈ (p.DecodeSet X G env w).calls.map Prod.fst ↔
        (b ∈ p.Set.map Prod.fst ∧ isExpression p.Set b = true) := by
    intro hp b
    rw [hmain.2.2.1 hp, List.mem_filter]
    unfold SortMapKeys
    rw [(List.perm_insertionSort _ _).mem_iff]
  refine ⟨hmain.1, hmain.2.1, ?_, hmain.2.2.1, ?_, hkeys, hmain.2.2.2, ?_⟩
  · intro c hc e he hlt
    rw [hmain.2.1 c hc, List.mem_filter]
    exact ⟨he, by simpa using hlt⟩
  · intro q hq
    have hnd : (q.Set.map Prod.fst).Nodup := (hq.map _).nodup_iff.2 hmap
    unfold PocEvent.DecodeSet
    rw [hq.length_eq, SortMapKeys_perm hq]
    dsimp only
    rw [decodeKeys_congr X G env q.Set p.Set (fun k => lookupKey_perm k hq hnd)]
  · intro hp b hb hexpr
    obtain ⟨c, hc, hcb⟩ := List.mem_map.1 ((hkeys hp b).2 ⟨hb, hexpr⟩)
    have hbind := hmain.2.2.2 c hc
    rw [hmain.2.1 c hc, hcb] at hbind
    exact hbind

/-- C10 witness: the `set` lists `b` (the expression `a`) before `a`; `a` is
resolved first and `b` is evaluated with `a` bound, so both keys end with the
value `xyz`. -/
theorem C10_set_resolved_in_key_order_witness :
    (sampleEvent.Set.map Prod.fst).Nodup ∧
    (sampleEvent.DecodeSet sampleExternals ⟨[], []⟩ ⟨[]⟩ sampleWorld).calls =
      [("a".toList, []), ("b".toList, [("a".toList, .str "xyz".toList)])] ∧
    (sampleEvent.DecodeSet sampleExternals ⟨[], []⟩ ⟨[]⟩ sampleWorld).set =
      [("a".toList, .str "xyz".toList), ("b".toList, .str "xyz".toList)] ∧
    (∀ c ∈ (sampleEvent.DecodeSet sampleExternals ⟨[], []⟩ ⟨[]⟩ sampleWorld).calls,
      c.2 = (sampleEvent.DecodeSet sampleExternals ⟨[], []⟩ ⟨[]⟩ sampleWorld).set.filter
        (fun e => e.1 < c.1)) ∧
    ∃ w1 : World, ∀ out,
      Evaluate sampleExternals w1 ⟨[]⟩ ((lookupKey "b".toList sampleEvent.Set).getD [])
          ((sampleEvent.DecodeSet sampleExternals ⟨[], []⟩ ⟨[]⟩ sampleWorld).set.filter
            (fun e => e.1 < "b".toList)) = .ok out →
        lookupKey "b".toList
            (sampleEvent.DecodeSet sampleExternals ⟨[], []⟩ ⟨[]⟩ sampleWorld).set =
          some (bindingOf sampleExternals out) :=
  ⟨by decide, by decide, by decide,
    (C10_set_resolved_in_key_order sampleExternals ⟨[], []⟩ sampleEvent ⟨[]⟩ sampleWorld
      (by decide)).2.1,
    ((C10_set_resolved_in_key_order sampleExternals ⟨[], []⟩ sampleEvent ⟨[]⟩ sampleWorld
      (by decide)).2.2.2.2.2.2.2 (by decide) "b".toList (by decide) (by decide)).imp
      (fun _ h => h.1)⟩

/-- C12 (as stated, refuted): the reverse domain is empty and the token is `t`;
`NewReverse` returns the empty `Reverse`, and `wait` on it returns true, because
the collector's answer to the query for the empty flag does not contain
`"data": []`. -/
theorem C12_wait_is_gated_by_the_token :
    NewReverse sampleExternals ⟨[], "t".toList⟩ sampleWorld = (.value {}, sampleWorld) ∧
    (VerifyReverse sampleExternals ⟨[], "t".toList⟩ {} 3 sampleWorld).1 = true ∧
    (reverseWaitFunc sampleExternals ⟨[], "t".toList⟩ sampleWorld (.object (.reverse {}))
      (.int 3)).1 = .bool true := by
  decide

/-- C12 (amended): in every process state in which the reverse domain is empty,
`NewReverse` returns the empty `Reverse`. When the reverse token is empty as
well, `wait` on that `Reverse` returns false for every number of seconds,
whatever the callback collector answers, without querying it. When the token is
not empty, `wait` returns true exactly if the collector answers the query for
the DNS records of the empty flag, or the query for its HTTP records that
follows, with a body that does not contain `"data": []`. -/
theorem C12_unconfigured_reverse (X : Externals) (G : Globals) (w : World)
    (hdomain : G.reverseDomain = []) :
    NewReverse X G w = (.value {}, w) ∧
    (G.reverseToken = [] → ∀ (timeout : Int) (w1 : World),
      VerifyReverse X G {} timeout w1 = (false, w1) ∧
      reverseWaitFunc X G w1 (.object (.reverse {})) (.int timeout) = (.bool false, w1)) ∧
    (G.reverseToken ≠ [] → ∀ (timeout : Int) (w1 : World),
      ((VerifyReverse X G {} timeout w1).1 = true ↔
        (∃ response, X.httpDo w1
            { Url := ⟨ceyeIoApi G.reverseToken "dns".toList []⟩, Method := "GET".toList,
              Headers := [], Body := [] } false = .ok response ∧
          Contains response.Body emptyData = false) ∨
        (∃ response, X.httpDo w1.tick
            { Url := ⟨ceyeIoApi G.reverseToken "http".toList []⟩, Method := "GET".toList,
              Headers := [], Body := [] } false = .ok response ∧
          Contains response.Body emptyData = false)) ∧
      (reverseWaitFunc X G w1 (.object (.reverse {})) (.int timeout)).1 =
        .bool (VerifyReverse X G {} timeout w1).1) := by
  refine ⟨by unfold NewReverse; rw [if_pos hdomain], ?_, ?_⟩
  · intro htoken timeout w1
    have h := VerifyReverse_without_token X G {} timeout w1 htoken
    exact ⟨h, by simp only [reverseWaitFunc, h]⟩
  · intro htoken timeout w1
    refine ⟨?_, by simp only [reverseWaitFunc]⟩
    have hdns := getReverseResp_true_iff X (ceyeIoApi G.reverseToken "dns".toList []) w1
    have hhttp := getReverseResp_true_iff X (ceyeIoApi G.reverseToken "http".toList []) w1.tick
    rw [← hdns.1, ← hhttp.1]
    unfold VerifyReverse
    rw [if_neg htoken]
    dsimp only
    rw [hdns.2]
    cases h1 : (getReverseResp X (ceyeIoApi G.reverseToken "dns".toList []) w1).1
    · cases h2 : (getReverseResp X (ceyeIoApi G.reverseToken "http".toList []) w1.tick).1 <;>
        simp
    · simp

/-- C12 witness: the domain is not set; without a token `wait` returns false,
and with the token `t` it returns true, the sample collector answering the
query for the DNS records with a body that does not contain `"data": []`. -/
theorem C12_unconfigured_reverse_witness :
    (⟨[], []⟩ : Globals).reverseDomain = [] ∧
    NewReverse sampleExternals ⟨[], []⟩ sampleWorld = (.value {}, sampleWorld) ∧
    VerifyReverse sampleExternals ⟨[], []⟩ {} 3 sampleWorld = (false, sampleWorld) ∧
    (VerifyReverse sampleExternals ⟨[], "t".toList⟩ {} 3 sampleWorld).1 = true :=
  ⟨rfl, (C12_unconfigured_reverse sampleExternals ⟨[], []⟩ sampleWorld rfl).1,
    ((C12_unconfigured_reverse sampleExternals ⟨[], []⟩ sampleWorld rfl).2.1 rfl 3
      sampleWorld).1,
    (((C12_unconfigured_reverse sampleExternals ⟨[], "t".toList⟩ sampleWorld rfl).2.2
      (by decide) 3 sampleWorld).1).2 (Or.inl ⟨_, rfl, by decide⟩)⟩

/-- C13 (the code at the failing input): for `randomInt(-1, 2^63 - 1)` both
arguments are `int64` values with `lo < hi`, yet `max - min` is `2^63`, which
wraps to `-2^63`, and `rand.Intn` panics on the non-positive bound instead of an
integer of `[lo, hi)` being returned. -/
theorem C13_randomInt_overflow_panics :
    -(2 ^ 63) ≤ (-1 : Int) ∧ (2 : Int) ^ 63 - 1 < 2 ^ 63 ∧ (-1 : Int) < 2 ^ 63 - 1 ∧
    wrapInt64 ((2 ^ 63 - 1) - (-1)) = -(2 ^ 63) ∧
    randomIntFunc sampleExternals sampleWorld (.int (-1)) (.int (2 ^ 63 - 1)) = .panic := by
  decide

/-- C14 (as stated, refuted): the pattern `(a)` has one group and it is unnamed;
on the body `a` `decode.Search` reports success and adds the empty key. -/
theorem C14_unnamed_group_succeeds :
    unnamedRegexp.names = [[], []] ∧
    Search groupExternals "(a)".toList "a".toList [] =
      .value (none, [([], .str "a".toList)]) := by
  decide

/-- C14 (amended): for every pattern, body and bindings map, the compiled
patterns being as Go's `regexp` makes them, `decode.Search` reports success
exactly when the pattern compiles, matches the body and contains at least one
capture group, named or not; it then binds every group under its name, an
unnamed group under the empty key. In every other case (no match, a pattern
without groups, a pattern that does not compile) it reports failure and leaves
the bindings map as it was. -/
theorem C14_search_succeeds_iff_group_matched (X : Externals) (re body : Str) (set : Bindings)
    (hregexp : ∀ r, X.regexpCompile re = .ok r → r.wellFormed) :
    ∃ err set1, Search X re body set = .value (err, set1) ∧
      (err = none ↔
        ∃ r, X.regexpCompile re = .ok r ∧ r.find body ≠ [] ∧ 1 < r.names.length) ∧
      (err ≠ none → set1 = set) ∧
      (∀ r, X.regexpCompile re = .ok r → err = none →
        set1 = bindGroups r.names (r.find body) set) := by
  cases hc : X.regexpCompile re with
  | error e =>
    refine ⟨some e, set, by simp [Search, hc], by simp, fun _ => rfl, by simp⟩
  | ok r =>
    have h := Search_outcome X re body set r hc (hregexp r hc)
    by_cases hm : r.find body ≠ [] ∧ 1 < r.names.length
    · rw [if_pos hm] at h
      refine ⟨none, _, h, ?_, by simp, ?_⟩
      · simp only [true_iff]
        exact ⟨r, rfl, hm⟩
      · intro r1 hr1 _
        cases hr1
        rfl
    · rw [if_neg hm] at h
      refine ⟨some "not matched".toList, set, h, ?_, fun _ => rfl, by simp⟩
      simp only [false_iff, reduceCtorEq]
      rintro ⟨r1, hr1, h1⟩
      cases hr1
      exact hm h1

/-- C14 witness: the pattern `token=(?P<tok>[a-z0-9]+)` on the body `token=abc`. -/
theorem C14_search_succeeds_iff_group_matched_witness :
    (∀ r, sampleExternals.regexpCompile tokenPattern = .ok r → r.wellFormed) ∧
    Search sampleExternals tokenPattern "token=abc".toList [] =
      .value (none, [("tok".toList, .str "abc".toList)]) ∧
    ∃ err set1, Search sampleExternals tokenPattern "token=abc".toList [] = .value (err, set1) ∧
      (err = none ↔ ∃ r, sampleExternals.regexpCompile tokenPattern = .ok r ∧
        r.find "token=abc".toList ≠ [] ∧ 1 < r.names.length) ∧
      (err ≠ none → set1 = []) ∧
      (∀ r, sampleExternals.regexpCompile tokenPattern = .ok r → err = none →
        set1 = bindGroups r.names (r.find "token=abc".toList) []) :=
  have hwf : ∀ r, sampleExternals.regexpCompile tokenPattern = .ok r → r.wellFormed := by
    intro r hr
    have : r = tokenRegexp := by
      simp only [sampleExternals, if_true, Except.ok.injEq] at hr
      exact hr.symm
    subst this
    refine ⟨by decide, fun body => ?_⟩
    by_cases hb : body = "token=abc".toList
    · right; simp [tokenRegexp, hb]
    · left; simp only [tokenRegexp]; rw [if_neg hb]
  ⟨hwf, by decide,
    C14_search_succeeds_iff_group_matched sampleExternals tokenPattern "token=abc".toList [] hwf⟩

/-- C11 (the code at the failing input): the reverse domain is `x.ceye.io`
followed by a line feed and the `set` asks for `newReverse()`; `url.Parse`
refuses the probe URL, `NewReverse` dereferences the nil URL, and
`PocEvent.DecodeSet` ends in a panic instead of returning bindings. -/
theorem C11_decodeSet_panics_in_newReverse :
    (NewReverse strictExternals lineFeedGlobals sampleWorld).1 = .panic ∧
    (reverseEvent.DecodeSet strictExternals lineFeedGlobals ⟨[]⟩ sampleWorld).panicked = true ∧
    (reverseEvent.DecodeSet strictExternals lineFeedGlobals ⟨[]⟩ sampleWorld).set = [] := by
  decide

/-- C15 (the code at the failing input): the rule `stringRule` has an empty
search, its request is dispatched and its response set up, and its expression
`randomLowercase(3)` evaluates to the string `xyz`; `scan` panics in the type
assertion `out.Value().(bool)` instead of returning. -/
theorem C15_scan_panics_on_non_boolean :
    stringRule.Search = [] ∧
    (scan sampleExternals sampleScanner sampleTarget stringRule sampleWorld).world.log.length = 1 ∧
    (scan sampleExternals sampleScanner sampleTarget stringRule
      sampleWorld).world.responsesAcquired = 1 ∧
    Evaluate sampleExternals
      (scan sampleExternals sampleScanner sampleTarget stringRule sampleWorld).world
      sampleScanner.env stringRule.Expression
      (scan sampleExternals sampleScanner sampleTarget stringRule sampleWorld).set =
      .ok (.str "xyz".toList) ∧
    (scan sampleExternals sampleScanner sampleTarget stringRule sampleWorld).ret = .panicked :=
  ⟨by decide, by decide, by decide, rfl, by decide⟩

/-- C16 (as stated, refuted): with the bindings `a ↦ "{{b}}"` and `b ↦ "x"` the
path `{{a}}` becomes `x` when `a` is visited first and `{{b}}` when `b` is; with
`a ↦ " "` and `b ↦ "y"` the path `p{{a}}` becomes `p` when `a` is visited first
and `p%20` when `b` is. The order also decides the path for an empty value
(`x {{a}}` with `a ↦ ""`), for a key with a brace (`{{a}}}}` with the keys `a`
and `a}}`), for a value that ends in a brace (`{{a}}{b}}` with `a ↦ "{"`), and
for a path in which holes nest (`{{a{{b}}c}}` with the keys `b` and `avc`). -/
theorem C16_order_changes_the_rule :
    [("b".toList, Val.str "x".toList), ("a".toList, Val.str "{{b}}".toList)].Perm
      [("a".toList, Val.str "{{b}}".toList), ("b".toList, Val.str "x".toList)] ∧
    (holeRule.DecodeSet sprintSample
      [("a".toList, .str "{{b}}".toList), ("b".toList, .str "x".toList)]).Path = "x".toList ∧
    (holeRule.DecodeSet sprintSample
      [("b".toList, .str "x".toList), ("a".toList, .str "{{b}}".toList)]).Path = "{{b}}".toList ∧
    (tailRule.DecodeSet sprintSample
      [("a".toList, .str " ".toList), ("b".toList, .str "y".toList)]).Path = "p".toList ∧
    (tailRule.DecodeSet sprintSample
      [("b".toList, .str "y".toList), ("a".toList, .str " ".toList)]).Path = "p%20".toList ∧
    ((exprRule "x {{a}}".toList "true".toList).DecodeSet sprintSample
      [("a".toList, .str []), ("b".toList, .str "y".toList)]).Path = "x".toList ∧
    ((exprRule "x {{a}}".toList "true".toList).DecodeSet sprintSample
      [("b".toList, .str "y".toList), ("a".toList, .str [])]).Path = "x%20".toList ∧
    ((exprRule "{{a}}\x7d\x7d".toList "true".toList).DecodeSet sprintSample
      [("a".toList, .str "v".toList), ("a\x7d\x7d".toList, .str "w".toList)]).Path =
        "v\x7d\x7d".toList ∧
    ((exprRule "{{a}}\x7d\x7d".toList "true".toList).DecodeSet sprintSample
      [("a\x7d\x7d".toList, .str "w".toList), ("a".toList, .str "v".toList)]).Path =
        "w".toList ∧
    ((exprRule "{{a}}\x7bb\x7d\x7d".toList "true".toList).DecodeSet sprintSample
      [("a".toList, .str "\x7b".toList), ("b".toList, .str "x".toList)]).Path = "x".toList ∧
    ((exprRule "{{a}}\x7bb\x7d\x7d".toList "true".toList).DecodeSet sprintSample
      [("b".toList, .str "x".toList), ("a".toList, .str "\x7b".toList)]).Path =
        "{{b}}".toList ∧
    ((exprRule "\x7b\x7ba{{b}}c\x7d\x7d".toList "true".toList).DecodeSet sprintSample
      [("b".toList, .str "v".toList), ("avc".toList, .str "X".toList)]).Path = "X".toList ∧
    ((exprRule "\x7b\x7ba{{b}}c\x7d\x7d".toList "true".toList).DecodeSet sprintSample
      [("avc".toList, .str "X".toList), ("b".toList, .str "v".toList)]).Path =
        "{{avc}}".toList := by
  decide

/-- C16 (amended): for every rule whose path and body, once the white space
around them is trimmed, and whose header values are templates (braces pair up
only in holes `{{k}}` with a brace-free `k`), and for every bindings map whose
substituted entries have a brace-free key and a non-empty formatted value that
cannot open a hole and has no white space at either end, `PocRule.DecodeSet`
yields the same rule for every order in which the entries are visited. -/
theorem C16_settled_bindings_give_one_rule (sprint : Val → Str) (r : PocRule)
    (set visited : Bindings) (horder : visited.Perm set)
    (hkeys : (set.map Prod.fst).Nodup)
    (hentries : ∀ e ∈ set, settledEntry sprint e = true)
    (hrule : templateRule r) :
    r.DecodeSet sprint visited = r.DecodeSet sprint set := by
  have hfold : visited.foldl (decodeEntry sprint) r = set.foldl (decodeEntry sprint) r := by
    by_cases hsub : ∃ e ∈ set, e.2.isStrMap = false
    · have hsubv : ∃ e ∈ visited, e.2.isStrMap = false := by
        obtain ⟨e, he, hm⟩ := hsub
        exact ⟨e, horder.mem_iff.2 he, hm⟩
      have hk : (visited.map Prod.fst).Nodup := (horder.map _).nodup_iff.2 hkeys
      rw [foldl_decodeEntry_trim sprint visited r hsubv, foldl_decodeEntry_trim sprint set r hsub]
      refine foldl_perm_of_comm (decodeEntry sprint) templated horder ?_ ?_ _
        (templated_of_templateRule r hrule)
      · intro x hx z hz
        exact decodeEntry_templated sprint z x (hentries x (horder.mem_iff.1 hx)) hz
      · intro x hx y hy z hz
        by_cases hxy : x = y
        · rw [hxy]
        · exact decodeEntry_comm sprint z x y (hentries x (horder.mem_iff.1 hx))
            (hentries y (horder.mem_iff.1 hy))
            (fun hfst => hxy (List.inj_on_of_nodup_map hk hx hy hfst)) hz
    · have hskip : ∀ e ∈ set, e.2.isStrMap = true := by
        intro e he
        cases hm : e.2.isStrMap with
        | true => rfl
        | false => exact absurd ⟨e, he, hm⟩ hsub
      rw [foldl_decodeEntry_skipped sprint set r hskip,
        foldl_decodeEntry_skipped sprint visited r (fun e he => hskip e (horder.mem_iff.1 he))]
  simp only [PocRule.DecodeSet, hfold]

/-- C16 witness: `jsonRule`, whose path begins and whose body ends with a
space, with `flag ↦ "abc"` and `id ↦ 7`, visited in both orders. -/
theorem C16_settled_bindings_give_one_rule_witness :
    [("id".toList, Val.int 7), ("flag".toList, Val.str "abc".toList)].Perm
      [("flag".toList, Val.str "abc".toList), ("id".toList, Val.int 7)] ∧
    templateRule jsonRule ∧
    (jsonRule.DecodeSet sprintSample
      [("flag".toList, .str "abc".toList), ("id".toList, .int 7)]).Path = "/echo/abc".toList ∧
    (jsonRule.DecodeSet sprintSample
      [("flag".toList, .str "abc".toList), ("id".toList, .int 7)]).Body = "{id:7}".toList ∧
    jsonRule.DecodeSet sprintSample [("id".toList, .int 7), ("flag".toList, .str "abc".toList)] =
      jsonRule.DecodeSet sprintSample [("flag".toList, .str "abc".toList), ("id".toList, .int 7)] :=
  have htemplate : templateRule jsonRule :=
    ⟨⟨[.text "/echo/".toList, .slot "flag".toList], by decide, by decide⟩,
      ⟨[.text "\x7bid:".toList, .slot "id".toList, .text "\x7d".toList], by decide, by decide⟩,
      fun h hh => by
        have : h = ("X-Flag".toList, "{{flag}}-{{id}}".toList) := by simpa [jsonRule] using hh
        subst this
        exact ⟨[.slot "flag".toList, .text "-".toList, .slot "id".toList], by decide, by decide⟩⟩
  ⟨List.Perm.swap _ _ _, htemplate, by decide, by decide,
    C16_settled_bindings_give_one_rule sprintSample jsonRule
      [("flag".toList, .str "abc".toList), ("id".toList, .int 7)]
      [("id".toList, .int 7), ("flag".toList, .str "abc".toList)]
      (List.Perm.swap _ _ _) (by decide) (by decide) htemplate⟩

end Neutron
